import Mathlib

/-!
# Verification of the Lingread multi-track speedreader core

A shallow embedding, in Lean 4, of the resume-token codec and the unified
multi-track playback engine of the Lingread repository (the Preact
`App`/`ResumeHashDialog` component and its helpers).

Modelling conventions:

* JavaScript strings are represented as `List Nat` of Unicode scalar values
  (code points).  Lone UTF-16 surrogates, which no realistic input contains,
  are mapped to U+FFFD where the platform would keep them.
* JavaScript numbers are represented as exact rationals `ℚ`.  IEEE-754
  rounding within the finite double range is idealised away: every
  arithmetic step the program performs (division, `Math.round`,
  `Math.trunc`, comparisons, clamping) is modelled exactly.  Overflow is
  observable and is modelled: `JSON.parse` of a numeric literal whose
  exact value reaches the double overflow threshold `2^1024 - 2^970`
  yields `Infinity`, which the decoder's `Number.isFinite` check rejects;
  the model keeps the exact rational and performs the same rejection by
  comparing its magnitude against that threshold (`jsFinite`).
* Platform functions used by the source (`btoa`, `atob`, `TextEncoder`,
  `TextDecoder`, `JSON.stringify`, `JSON.parse`, `String.prototype.trim`)
  are modelled from their standard (WHATWG / ECMA-404) semantics.
* React state updates are modelled as pure state transitions; the
  `useEffect` blocks that re-clamp the index and force-pause an empty
  player are applied after each transition (they are idempotent, so
  applying them unconditionally agrees with React running them whenever
  their dependencies change).
-/

set_option maxRecDepth 8000

namespace Lingread

/-- Code points of a Lean string literal, used to write concrete JS strings. -/
def strC (s : String) : List Nat := s.data.map Char.toNat

/-- A Unicode scalar value: what a `Char` may hold and what survives a
UTF-8 encode/decode round trip. -/
def ValidScalar (c : Nat) : Prop := c < 0xD800 ∨ (0xDFFF < c ∧ c < 0x110000)

instance (c : Nat) : Decidable (ValidScalar c) := by
  unfold ValidScalar; infer_instance

/-- Every code point of the list is a Unicode scalar value. -/
def ValidStr (s : List Nat) : Prop := ∀ c ∈ s, ValidScalar c

instance (s : List Nat) : Decidable (ValidStr s) := by
  unfold ValidStr; infer_instance

/-! ## Source helper `clamp` and JS `Math` functions -/

/-- Source `clamp` (`Math.max(min, Math.min(max, n))`) on integers. -/
def clampI (n lo hi : Int) : Int := max lo (min hi n)

/-- Source `clamp` on rationals (the pace is clamped as a JS number). -/
def clampQ (n lo hi : ℚ) : ℚ := max lo (min hi n)

/-- `Math.round` for non-negative finite numbers: half-up, `⌊q + 1/2⌋`. -/
def jsRound (q : ℚ) : Int := Int.floor (q + 1/2)

/-- `Math.trunc`: truncation toward zero. -/
def jsTrunc (q : ℚ) : Int := Int.tdiv q.num (q.den : Int)

/-! ## JS `String.prototype.trim` -/

/-- The ECMAScript white-space ∪ line-terminator set used by `trim`. -/
def jsWsB (c : Nat) : Bool :=
  c = 0x09 || c = 0x0A || c = 0x0B || c = 0x0C || c = 0x0D || c = 0x20 ||
  c = 0xA0 || c = 0x1680 || (0x2000 ≤ c && c ≤ 0x200A) || c = 0x2028 ||
  c = 0x2029 || c = 0x202F || c = 0x205F || c = 0x3000 || c = 0xFEFF

/-- `String.prototype.trim`: drop leading and trailing JS white space. -/
def jsTrim (s : List Nat) : List Nat :=
  ((s.dropWhile jsWsB).reverse.dropWhile jsWsB).reverse

/-! ## Base64 (`btoa` / `atob`) and the URL-safe variant of the source -/

/-- The standard base64 alphabet: sextet value to code point. -/
def b64c (i : Nat) : Nat :=
  if i < 26 then 65 + i
  else if i < 52 then 97 + (i - 26)
  else if i < 62 then 48 + (i - 52)
  else if i = 62 then 43 else 47

/-- Code point to sextet value; `none` for characters outside the alphabet. -/
def b64Index (c : Nat) : Option Nat :=
  if 65 ≤ c ∧ c ≤ 90 then some (c - 65)
  else if 97 ≤ c ∧ c ≤ 122 then some (c - 97 + 26)
  else if 48 ≤ c ∧ c ≤ 57 then some (c - 48 + 52)
  else if c = 43 then some 62
  else if c = 47 then some 63
  else none

/-- Platform `btoa` on a byte list: 3-byte groups to 4 sextet characters,
with `=` (code 61) padding on a short final group. -/
def btoaGroups : List Nat → List Nat
  | b1 :: b2 :: b3 :: t =>
      b64c (b1 / 4) :: b64c (b1 % 4 * 16 + b2 / 16) ::
      b64c (b2 % 16 * 4 + b3 / 64) :: b64c (b3 % 64) :: btoaGroups t
  | [b1] => [b64c (b1 / 4), b64c (b1 % 4 * 16), 61, 61]
  | [b1, b2] => [b64c (b1 / 4), b64c (b1 % 4 * 16 + b2 / 16), b64c (b2 % 16 * 4), 61]
  | [] => []

/-- The unpadded body of `btoa` (same sextets, no `=`). -/
def btoaBody : List Nat → List Nat
  | b1 :: b2 :: b3 :: t =>
      b64c (b1 / 4) :: b64c (b1 % 4 * 16 + b2 / 16) ::
      b64c (b2 % 16 * 4 + b3 / 64) :: b64c (b3 % 64) :: btoaBody t
  | [b1] => [b64c (b1 / 4), b64c (b1 % 4 * 16)]
  | [b1, b2] => [b64c (b1 / 4), b64c (b1 % 4 * 16 + b2 / 16), b64c (b2 % 16 * 4)]
  | [] => []

/-- Source `.replace(/\+/g, '-').replace(/\//g, '_')` on one character. -/
def urlRepl (c : Nat) : Nat := if c = 43 then 45 else if c = 47 then 95 else c

/-- Source replace of dash by plus and underscore by slash, one character. -/
def urlUnrepl (c : Nat) : Nat := if c = 45 then 43 else if c = 95 then 47 else c

/-- Source regex `/=+$/`: strip every trailing `=`. -/
def stripTrailingEq (s : List Nat) : List Nat :=
  (s.reverse.dropWhile (fun c => c = 61)).reverse

/-- Source `base64UrlEncode`: `btoa`, then `+/` to `-_`, then strip `=`. -/
def base64UrlEncode (bytes : List Nat) : List Nat :=
  stripTrailingEq ((btoaGroups bytes).map urlRepl)

/-- WHATWG forgiving-base64 ASCII whitespace. -/
def asciiWsB (c : Nat) : Bool :=
  c = 0x09 || c = 0x0A || c = 0x0C || c = 0x0D || c = 0x20

/-- Forgiving-base64 padding removal: up to two trailing `=`. -/
def stripAtobPadding (s : List Nat) : List Nat :=
  match s.reverse with
  | 61 :: 61 :: r => r.reverse
  | 61 :: r => r.reverse
  | _ => s

/-- Sextet values back to bytes; a final group of 2 or 3 characters yields
1 or 2 bytes, leftover bits discarded (forgiving-base64). -/
def decodeSextets : List Nat → List Nat
  | a :: b :: c :: d :: t =>
      (a * 4 + b / 16) :: (b % 16 * 16 + c / 4) :: (c % 4 * 64 + d) :: decodeSextets t
  | [a, b] => [a * 4 + b / 16]
  | [a, b, c] => [a * 4 + b / 16, b % 16 * 16 + c / 4]
  | _ => []

/-- Platform `atob` (WHATWG forgiving-base64 decode): strip ASCII
whitespace, strip up to two trailing `=` when the length is a multiple of
four, fail on length `≡ 1 (mod 4)` or on characters outside the alphabet. -/
def atob (s : List Nat) : Option (List Nat) :=
  let d0 := s.filter (fun c => !asciiWsB c)
  let d1 := if d0.length % 4 = 0 then stripAtobPadding d0 else d0
  if d1.length % 4 = 1 then none
  else (d1.mapM b64Index).map decodeSextets

/-- Source `base64UrlDecode`: re-pad with `=` to a multiple of four,
map `-_` back to `+/`, and run `atob`. -/
def base64UrlDecode (s : List Nat) : Option (List Nat) :=
  atob ((s ++ List.replicate ((4 - s.length % 4) % 4) 61).map urlUnrepl)

/-! ## UTF-8 (`TextEncoder` / `TextDecoder`) -/

/-- `TextEncoder`: UTF-8 bytes of one scalar value. -/
def utf8EncodeChar (c : Nat) : List Nat :=
  if c < 0x80 then [c]
  else if c < 0x800 then [0xC0 + c / 64, 0x80 + c % 64]
  else if c < 0x10000 then [0xE0 + c / 4096, 0x80 + c / 64 % 64, 0x80 + c % 64]
  else [0xF0 + c / 262144, 0x80 + c / 4096 % 64, 0x80 + c / 64 % 64, 0x80 + c % 64]

/-- `TextEncoder().encode`: UTF-8 bytes of a string. -/
def utf8Encode (s : List Nat) : List Nat := s.flatMap utf8EncodeChar

/-- The WHATWG UTF-8 decoder in its default non-fatal mode (the decoding
body of `TextDecoder().decode`; the decoder additionally strips a leading
byte-order mark, see `textDecode`): every maximal invalid subsequence is
replaced by U+FFFD.
The second byte of a multi-byte sequence carries lead-dependent bounds so
that overlong encodings, surrogates and values above U+10FFFF are invalid. -/
def utf8Decode : List Nat → List Nat
  | [] => []
  | b :: rest =>
    if b < 0x80 then b :: utf8Decode rest
    else if 0xC2 ≤ b ∧ b ≤ 0xDF then
      match rest with
      | b1 :: r =>
        if 0x80 ≤ b1 ∧ b1 ≤ 0xBF then ((b - 0xC0) * 64 + (b1 - 0x80)) :: utf8Decode r
        else 0xFFFD :: utf8Decode (b1 :: r)
      | [] => [0xFFFD]
    else if 0xE0 ≤ b ∧ b ≤ 0xEF then
      match rest with
      | b1 :: r =>
        if (if b = 0xE0 then 0xA0 else 0x80) ≤ b1 ∧
            b1 ≤ (if b = 0xED then 0x9F else 0xBF) then
          match r with
          | b2 :: r2 =>
            if 0x80 ≤ b2 ∧ b2 ≤ 0xBF then
              ((b - 0xE0) * 4096 + (b1 - 0x80) * 64 + (b2 - 0x80)) :: utf8Decode r2
            else 0xFFFD :: utf8Decode (b2 :: r2)
          | [] => [0xFFFD]
        else 0xFFFD :: utf8Decode (b1 :: r)
      | [] => [0xFFFD]
    else if 0xF0 ≤ b ∧ b ≤ 0xF4 then
      match rest with
      | b1 :: r =>
        if (if b = 0xF0 then 0x90 else 0x80) ≤ b1 ∧
            b1 ≤ (if b = 0xF4 then 0x8F else 0xBF) then
          match r with
          | b2 :: r2 =>
            if 0x80 ≤ b2 ∧ b2 ≤ 0xBF then
              match r2 with
              | b3 :: r3 =>
                if 0x80 ≤ b3 ∧ b3 ≤ 0xBF then
                  ((b - 0xF0) * 262144 + (b1 - 0x80) * 4096 +
                    (b2 - 0x80) * 64 + (b3 - 0x80)) :: utf8Decode r3
                else 0xFFFD :: utf8Decode (b3 :: r3)
              | [] => [0xFFFD]
            else 0xFFFD :: utf8Decode (b2 :: r2)
          | [] => [0xFFFD]
        else 0xFFFD :: utf8Decode (b1 :: r)
      | [] => [0xFFFD]
    else 0xFFFD :: utf8Decode rest
termination_by l => l.length
decreasing_by all_goals (simp_wf; try omega)

/-- The UTF-8 byte-order mark EF BB BF, which `TextDecoder().decode`
removes from the start of the stream unless `ignoreBOM` is set. -/
def stripBom : List Nat → List Nat
  | 239 :: 187 :: 191 :: r => r
  | l => l

/-- `TextDecoder().decode` with default options: strip a leading
byte-order mark, then decode UTF-8. -/
def textDecode (bytes : List Nat) : List Nat := utf8Decode (stripBom bytes)

/-! ## JSON values, `JSON.stringify` string escaping, `JSON.parse` -/

/-- The JSON value universe (`JSON.parse` results). -/
inductive JValue : Type where
  | jnull : JValue
  | jbool : Bool → JValue
  | jnum : ℚ → JValue
  | jstr : List Nat → JValue
  | jarr : List JValue → JValue
  | jobj : List (List Nat × JValue) → JValue

/-- Lowercase hex digit of a value below 16. -/
def hexDigit (d : Nat) : Nat := if d < 10 then 48 + d else 87 + d

/-- Hex digit value of a code point (`0-9a-fA-F`). -/
def hexVal (c : Nat) : Option Nat :=
  if 48 ≤ c ∧ c ≤ 57 then some (c - 48)
  else if 97 ≤ c ∧ c ≤ 102 then some (c - 97 + 10)
  else if 65 ≤ c ∧ c ≤ 70 then some (c - 65 + 10)
  else none

/-- `JSON.stringify` escaping of one string character: quote, backslash,
the short control escapes, `\u00xx` for other control characters. -/
def escChar (c : Nat) : List Nat :=
  if c = 34 then [92, 34]
  else if c = 92 then [92, 92]
  else if c = 8 then [92, 98]
  else if c = 9 then [92, 116]
  else if c = 10 then [92, 110]
  else if c = 12 then [92, 102]
  else if c = 13 then [92, 114]
  else if c < 32 then [92, 117, 48, 48, hexDigit (c / 16), hexDigit (c % 16)]
  else [c]

/-- `JSON.stringify` body of a string literal (no surrounding quotes). -/
def escStr (s : List Nat) : List Nat := s.flatMap escChar

/-- Decimal digits of a natural number (code points). -/
def natDigits (n : Nat) : List Nat :=
  if h : n < 10 then [48 + n] else natDigits (n / 10) ++ [48 + n % 10]
termination_by n
decreasing_by simp_wf; omega

/-- Decimal digits of an integer, with a leading minus when negative. -/
def intDigits (z : Int) : List Nat :=
  if z < 0 then 45 :: natDigits (-z).toNat else natDigits z.toNat

/-- `JSON.stringify` of a number.  The program only ever serialises
non-negative word indices, so only integral values arise; the IEEE-754
shortest-round-trip printing of non-integral numbers is not modelled and
the integral part is printed in that (unreachable) case. -/
def numLit (q : ℚ) : List Nat := intDigits q.num ++ (if q.den = 1 then [] else [])

/-- JSON white space (ECMA-404): space, tab, line feed, carriage return. -/
def jsonWsB (c : Nat) : Bool := c = 32 || c = 9 || c = 10 || c = 13

/-- Skip JSON white space. -/
def skipWs (l : List Nat) : List Nat := l.dropWhile jsonWsB

/-- Prepend a decoded character to a string-lexer result. -/
def consCh (c : Nat) (o : Option (List Nat × List Nat)) :
    Option (List Nat × List Nat) :=
  o.map (fun p => (c :: p.1, p.2))

/-- Resolve one `\uXXXX` escape of value `u` against the rest `r` of the
literal: a high surrogate followed by a low-surrogate `\uXXXX` escape
combines into one scalar value consuming the second escape; a lone
surrogate (kept as a lone UTF-16 unit by `JSON.parse`) is mapped to
U+FFFD; anything else is taken verbatim. -/
def lexUEscape (u : Nat) (r : List Nat) : Nat × List Nat :=
  if 0xD800 ≤ u ∧ u ≤ 0xDBFF then
    match r with
    | 92 :: 117 :: g1 :: g2 :: g3 :: g4 :: r4 =>
      (match hexVal g1, hexVal g2, hexVal g3, hexVal g4 with
       | some a2, some b2, some c3, some d2 =>
         if 0xDC00 ≤ a2 * 4096 + b2 * 256 + c3 * 16 + d2 ∧
             a2 * 4096 + b2 * 256 + c3 * 16 + d2 ≤ 0xDFFF then
           (0x10000 + (u - 0xD800) * 1024 +
             (a2 * 4096 + b2 * 256 + c3 * 16 + d2 - 0xDC00), r4)
         else (0xFFFD, 92 :: 117 :: g1 :: g2 :: g3 :: g4 :: r4)
       | _, _, _, _ => (0xFFFD, 92 :: 117 :: g1 :: g2 :: g3 :: g4 :: r4))
    | _ => (0xFFFD, r)
  else if 0xDC00 ≤ u ∧ u ≤ 0xDFFF then (0xFFFD, r)
  else (u, r)

theorem lexUEscape_rest_le (u : Nat) (r : List Nat) :
    (lexUEscape u r).2.length ≤ r.length := by
  unfold lexUEscape
  repeat' split
  all_goals simp
  omega

/-- Lex the body of a JSON string literal, after the opening quote, up to
and consuming the closing quote.  Handles the escape sequences of
ECMA-404 (`\uXXXX` via `lexUEscape`); raw control characters make the
literal invalid, as does a truncated or unknown escape. -/
def lexStringBody : List Nat → Option (List Nat × List Nat)
  | [] => none
  | 34 :: r => some ([], r)
  | 92 :: 117 :: h1 :: h2 :: h3 :: h4 :: r3 =>
    (match hexVal h1, hexVal h2, hexVal h3, hexVal h4 with
     | some a, some b, some c2, some d =>
       consCh (lexUEscape (a * 4096 + b * 256 + c2 * 16 + d) r3).1
         (lexStringBody (lexUEscape (a * 4096 + b * 256 + c2 * 16 + d) r3).2)
     | _, _, _, _ => none)
  | 92 :: e :: r2 =>
    if e = 34 then consCh 34 (lexStringBody r2)
    else if e = 92 then consCh 92 (lexStringBody r2)
    else if e = 47 then consCh 47 (lexStringBody r2)
    else if e = 98 then consCh 8 (lexStringBody r2)
    else if e = 102 then consCh 12 (lexStringBody r2)
    else if e = 110 then consCh 10 (lexStringBody r2)
    else if e = 114 then consCh 13 (lexStringBody r2)
    else if e = 116 then consCh 9 (lexStringBody r2)
    else none
  | [92] => none
  | c :: r => if c < 32 then none else consCh c (lexStringBody r)
termination_by l => l.length
decreasing_by
  all_goals simp_wf
  · have := lexUEscape_rest_le (a * 4096 + b * 256 + c2 * 16 + d) r3
    omega
  all_goals omega

/-- Decimal digit. -/
def isDigitB (c : Nat) : Bool := 48 ≤ c && c ≤ 57

/-- Value of a list of decimal digits. -/
def digitsVal (ds : List Nat) : Nat := ds.foldl (fun acc c => acc * 10 + (c - 48)) 0

/-- `10 ^ e` as a rational, for an integer exponent. -/
def pow10 (e : Int) : ℚ :=
  if 0 ≤ e then ((10 ^ e.toNat : ℕ) : ℚ) else 1 / ((10 ^ (-e).toNat : ℕ) : ℚ)

/-- Lex a JSON number (ECMA-404 grammar: optional minus, integer part
without leading zeros, optional fraction, optional exponent), returning
its exact rational value.  `JSON.parse` then rounds to an IEEE-754 double;
that rounding is idealised away. -/
def lexNumber (l : List Nat) : Option (ℚ × List Nat) :=
  let sgn : ℚ × List Nat := match l with | 45 :: r => (-1, r) | _ => (1, l)
  let ip := sgn.2.takeWhile isDigitB
  let r1 := sgn.2.dropWhile isDigitB
  if ip.isEmpty then none
  else if 1 < ip.length ∧ ip.headD 0 = 48 then none
  else
    let fr : Option (List Nat) × List Nat :=
      match r1 with
      | 46 :: rr => (some (rr.takeWhile isDigitB), rr.dropWhile isDigitB)
      | _ => (none, r1)
    match fr.1 with
    | some [] => none
    | frDigits =>
      let mant : ℚ := (digitsVal ip : ℚ) +
        (match frDigits with
         | some ds => (digitsVal ds : ℚ) / ((10 ^ ds.length : ℕ) : ℚ)
         | none => 0)
      match fr.2 with
      | 101 :: rr =>
        let es : Int × List Nat :=
          match rr with | 43 :: t => (1, t) | 45 :: t => (-1, t) | _ => (1, rr)
        let ed := es.2.takeWhile isDigitB
        if ed.isEmpty then none
        else some (sgn.1 * mant * pow10 (es.1 * (digitsVal ed : Int)),
          es.2.dropWhile isDigitB)
      | 69 :: rr =>
        let es : Int × List Nat :=
          match rr with | 43 :: t => (1, t) | 45 :: t => (-1, t) | _ => (1, rr)
        let ed := es.2.takeWhile isDigitB
        if ed.isEmpty then none
        else some (sgn.1 * mant * pow10 (es.1 * (digitsVal ed : Int)),
          es.2.dropWhile isDigitB)
      | r2 => some (sgn.1 * mant, r2)

mutual

/-- Fuelled recursive-descent JSON value parser (`JSON.parse` core).
Fuel only bounds the recursion depth; each structural level consumes one
unit, so any fuel above the nesting depth of the input gives the same
result. -/
def parseVal : Nat → List Nat → Option (JValue × List Nat)
  | 0, _ => none
  | f + 1, l =>
    match skipWs l with
    | 110 :: 117 :: 108 :: 108 :: r => some (.jnull, r)
    | 116 :: 114 :: 117 :: 101 :: r => some (.jbool true, r)
    | 102 :: 97 :: 108 :: 115 :: 101 :: r => some (.jbool false, r)
    | 34 :: r => (lexStringBody r).map (fun p => (.jstr p.1, p.2))
    | 91 :: r =>
      (match skipWs r with
       | 93 :: r2 => some (.jarr [], r2)
       | _ => (parseItems f r).map (fun p => (.jarr p.1, p.2)))
    | 123 :: r =>
      (match skipWs r with
       | 125 :: r2 => some (.jobj [], r2)
       | _ => (parseMembers f r).map (fun p => (.jobj p.1, p.2)))
    | l2 => (lexNumber l2).map (fun p => (.jnum p.1, p.2))

/-- Parse one or more comma-separated array items and the closing bracket. -/
def parseItems : Nat → List Nat → Option (List JValue × List Nat)
  | 0, _ => none
  | f + 1, l =>
    match parseVal f l with
    | none => none
    | some (v, r) =>
      match skipWs r with
      | 44 :: r2 => (parseItems f r2).map (fun p => (v :: p.1, p.2))
      | 93 :: r2 => some ([v], r2)
      | _ => none

/-- Parse one or more comma-separated object members and the closing brace. -/
def parseMembers : Nat → List Nat → Option (List (List Nat × JValue) × List Nat)
  | 0, _ => none
  | f + 1, l =>
    match skipWs l with
    | 34 :: r =>
      (match lexStringBody r with
       | none => none
       | some (k, r1) =>
         match skipWs r1 with
         | 58 :: r2 =>
           (match parseVal f r2 with
            | none => none
            | some (v, r3) =>
              match skipWs r3 with
              | 44 :: r4 => (parseMembers f r4).map (fun p => ((k, v) :: p.1, p.2))
              | 125 :: r4 => some ([(k, v)], r4)
              | _ => none)
         | _ => none)
    | _ => none

end

/-- `JSON.parse`: parse one value with white space around it and require
the input to be fully consumed.  The initial fuel `length + 1` always
exceeds the nesting depth of the input. -/
def jsonParse (l : List Nat) : Option JValue :=
  match parseVal (l.length + 1) l with
  | some (v, r) => if skipWs r = [] then some v else none
  | none => none

/-! ## The resume-token codec (`encodeResumeHash` / `decodeResumeHash`) -/

/-- Source `ResumePayloadV1` (the `v : 1` tag is implicit in the type).
`i` is a JS number, hence a rational in the model; `n` and `w` are the
optional advisory fields. -/
structure ResumePayloadV1 where
  fp : List Nat
  i : ℚ
  n : Option (List Nat)
  w : Option (List Nat)
deriving DecidableEq, Repr

/-- `JSON.stringify` of the payload object: the literal has fields in
source order `v, fp, i, n, w`, and `JSON.stringify` omits the optional
fields when they are `undefined`. -/
def stringifyPayload (p : ResumePayloadV1) : List Nat :=
  strC "\x7b\"v\":1,\"fp\":\"" ++ escStr p.fp ++ strC "\",\"i\":" ++ numLit p.i ++
  (match p.n with
   | some nv => strC ",\"n\":\"" ++ escStr nv ++ strC "\""
   | none => []) ++
  (match p.w with
   | some wv => strC ",\"w\":\"" ++ escStr wv ++ strC "\""
   | none => []) ++
  strC "\x7d"

/-- The literal tag `sr1.` prefixed by `encodeResumeHash`. -/
def sr1Tag : List Nat := strC "sr1."

/-- Source `encodeResumeHash`: JSON, UTF-8, URL-safe unpadded base64,
`sr1.` prefix. -/
def encodeResumeHash (p : ResumePayloadV1) : List Nat :=
  sr1Tag ++ base64UrlEncode (utf8Encode (stringifyPayload p))

/-- The distinct failures `decodeResumeHash` can throw, one per `throw`
site (base64 and JSON parse failures are platform exceptions). -/
inductive DecodeError : Type where
  | notSpeedreaderV1 : DecodeError
  | badBase64 : DecodeError
  | badJson : DecodeError
  | unsupportedVersion : DecodeError
  | missingFingerprint : DecodeError
  | missingIndex : DecodeError
deriving DecidableEq, Repr

deriving instance DecidableEq for Except

/-- Last-wins association lookup (JS object literal semantics). -/
def lookupLast : List (List Nat × JValue) → List Nat → Option JValue
  | [], _ => none
  | (k1, v1) :: rest, k =>
    match lookupLast rest k with
    | some r => some r
    | none => if k1 = k then some v1 else none

/-- JS property access `parsed.k` for the keys the decoder reads: a real
property only exists on a plain object (`JSON.parse` duplicate keys keep
the last value); on every other JSON value the read yields `undefined`
(none of the keys `v`, `fp`, `i`, `n`, `w` is a built-in like `length`). -/
def getField : JValue → List Nat → Option JValue
  | .jobj fields, k => lookupLast fields k
  | _, _ => none

/-- JS falsiness of a JSON value (`!parsed`): `null`, `false`, `0` and the
empty string are falsy; arrays and objects are always truthy. -/
def jsFalsy : JValue → Bool
  | .jnull => true
  | .jbool b => !b
  | .jnum q => q = 0
  | .jstr s => s.isEmpty
  | .jarr _ => false
  | .jobj _ => false

/-- Strict comparison `parsed.v === 1` after a property read. -/
def isNumOne : Option JValue → Bool
  | some (.jnum q) => q = 1
  | _ => false

/-- The string extracted from an advisory field, when it is a string
(the source returns the raw parsed object without validating `n`/`w`;
the program itself only ever writes strings there). -/
def optStr : Option JValue → Option (List Nat)
  | some (.jstr s) => some s
  | _ => none

/-- The smallest magnitude at which conversion of an exact value to an
IEEE-754 double (round to nearest, ties to even) overflows to Infinity:
the maximal finite double is `2^1024 - 2^971`, and everything at or above
the midpoint `2^1024 - 2^970` rounds up to Infinity. -/
def dblOverflow : ℚ := 2 ^ 1024 - 2 ^ 970

/-- `Number.isFinite(parsed.i)` on a number produced by `JSON.parse`:
the literal's exact value converts to a finite double exactly when its
magnitude stays below the overflow threshold. -/
def jsFinite (q : ℚ) : Bool := decide (|q| < dblOverflow)

/-- Source `decodeResumeHash`: trim, check the `sr1.` tag, base64-decode
the rest, decode the bytes with `TextDecoder` (which strips a leading
byte-order mark), `JSON.parse`, then validate `v`, `fp`, and `i` (which
must be a finite number) in that order. -/
def decodeResumeHash (hash : List Nat) : Except DecodeError ResumePayloadV1 :=
  let trimmed := jsTrim hash
  if ¬ sr1Tag.isPrefixOf trimmed then .error .notSpeedreaderV1
  else
    match base64UrlDecode (trimmed.drop 4) with
    | none => .error .badBase64
    | some bytes =>
      match jsonParse (textDecode bytes) with
      | none => .error .badJson
      | some parsed =>
        if jsFalsy parsed ∨ ¬ isNumOne (getField parsed (strC "v")) then
          .error .unsupportedVersion
        else
          match getField parsed (strC "fp") with
          | some (.jstr fpv) =>
            if fpv.isEmpty then .error .missingFingerprint
            else
              match getField parsed (strC "i") with
              | some (.jnum iv) =>
                if jsFinite iv then
                  .ok ⟨fpv, iv, optStr (getField parsed (strC "n")),
                    optStr (getField parsed (strC "w"))⟩
                else .error .missingIndex
              | _ => .error .missingIndex
          | _ => .error .missingFingerprint

/-! ## Track registry and playback engine (`App`) -/

/-- Source `Track` (the raw text, only displayed, is omitted): id, display
name, token sequence, and optional content fingerprint. -/
structure Track where
  id : List Nat
  name : List Nat
  words : List (List Nat)
  fingerprint : Option (List Nat)
deriving DecidableEq, Repr

/-- A freshly-reset empty track, as created by the initial state and by
`removeTrack` when the last track is removed (`id()` is generated from
the clock and `Math.random`, so the model takes it as a parameter). -/
def freshTrack (newId : List Nat) : Track :=
  ⟨newId, strC "Track 1", [], none⟩

/-- Source `removeTrack`: drop the track with the given id; if that would
leave zero tracks, put one freshly-reset empty track in its place. -/
def removeTrack (tid newId : List Nat) (tracks : List Track) : List Track :=
  let next := tracks.filter (fun t => t.id ≠ tid)
  if next.isEmpty then [freshTrack newId] else next

/-- The `App` component state: track registry, shared cursor, pace,
play/seek flags.  `wordIndex` is kept as an integer so that the
non-negativity half of the range invariant is proved, not assumed. -/
structure AppState where
  tracks : List Track
  wordIndex : Int
  wpm : ℚ
  isPlaying : Bool
  isSeeking : Bool
deriving DecidableEq, Repr

/-- Source `maxLen`: `tracks.reduce((m, t) => Math.max(m, t.words.length), 0)`. -/
def maxLen (st : AppState) : Nat :=
  st.tracks.foldl (fun m t => max m t.words.length) 0

/-- Source `anyLoaded`: `tracks.some((t) => t.words.length > 0)`. -/
def anyLoaded (st : AppState) : Bool :=
  st.tracks.any (fun t => !t.words.isEmpty)

/-- Source `intervalMs`: `Math.round(60000 / clamp(wpm, 60, 2000))`. -/
def intervalMs (wpm : ℚ) : Int := jsRound (60000 / clampQ wpm 60 2000)

/-- The initial `App` state: one empty track, index 0, 300 wpm, paused. -/
def initialState (firstId : List Nat) : AppState :=
  ⟨[freshTrack firstId], 0, 300, false, false⟩

/-- The `useEffect` that re-clamps the shared index when `maxLen` changes:
`(i) => !maxLen ? 0 : Math.min(i, Math.max(0, maxLen - 1))`. -/
def clampEffect (st : AppState) : AppState :=
  { st with wordIndex :=
      if maxLen st = 0 then 0 else min st.wordIndex (max 0 ((maxLen st : Int) - 1)) }

/-- The `useEffect` that force-pauses when playing with no loaded track:
`if (isPlaying && !anyLoaded) setIsPlaying(false)`. -/
def forcePauseEffect (st : AppState) : AppState :=
  if st.isPlaying && !anyLoaded st then { st with isPlaying := false } else st

/-- Both reactive effects, applied after a state transition (they are
idempotent and commute, so unconditional application coincides with React
re-running them when their dependencies change). -/
def runEffects (st : AppState) : AppState := forcePauseEffect (clampEffect st)

/-- Whether the playback interval timer is installed
(`if (!isPlaying || isSeeking) return`). -/
def tickEnabled (st : AppState) : Bool := st.isPlaying && !st.isSeeking

/-- One firing of the playback interval: advance to
`min(i + 1, max(0, maxLen - 1))` and auto-stop (`setIsPlaying(false)`,
scheduled via `setTimeout` and applied before any further tick) when the
new index has reached the end of the longest track. -/
def rawTick (st : AppState) : AppState :=
  if tickEnabled st then
    let next : Int :=
      if maxLen st = 0 then 0
      else min (st.wordIndex + 1) (max 0 ((maxLen st : Int) - 1))
    { st with
      wordIndex := next
      isPlaying :=
        if maxLen st ≠ 0 ∧ (maxLen st : Int) - 1 ≤ next then false else st.isPlaying }
  else st

/-- Source `nextWord`. -/
def rawNext (st : AppState) : AppState :=
  { st with wordIndex :=
      if maxLen st = 0 then 0
      else min (st.wordIndex + 1) (max 0 ((maxLen st : Int) - 1)) }

/-- Source `prevWord`: `Math.max(0, i - 1)`. -/
def rawPrev (st : AppState) : AppState :=
  { st with wordIndex := max 0 (st.wordIndex - 1) }

/-- Source `addTrack`: append a fresh empty track named `Track {n+1}`.
The generated name is irrelevant to the verified properties; the fresh id
is a parameter as in `removeTrack`. -/
def rawAdd (newId : List Nat) (st : AppState) : AppState :=
  { st with tracks := st.tracks ++
      [⟨newId, strC "Track " ++ natDigits (st.tracks.length + 1), [], none⟩] }

/-- Source `onFile` after the text is read, tokenized and fingerprinted
(tokenizer and fingerprinter are external collaborators): replace the
matching track wholesale and reset the shared index to 0. -/
def rawLoad (tid name : List Nat) (tokens : List (List Nat))
    (fp : List Nat) (st : AppState) : AppState :=
  { st with
    tracks := st.tracks.map (fun t =>
      if t.id = tid then ⟨t.id, name, tokens, some fp⟩ else t)
    wordIndex := 0 }

/-- Source remove button: `removeTrack` on the registry. -/
def rawRemove (tid newId : List Nat) (st : AppState) : AppState :=
  { st with tracks := removeTrack tid newId st.tracks }

/-- The play/pause toggle (`setIsPlaying((p) => !p)`); the keyboard
shortcut fires it even when the button would be disabled. -/
def rawToggle (st : AppState) : AppState :=
  { st with isPlaying := !st.isPlaying }

/-- The progress slider (`onInput` sets the index directly; the DOM
constrains the value to the slider range `[0, max(0, maxLen-1)]`). -/
def rawSeek (n : Int) (st : AppState) : AppState :=
  { st with wordIndex := n }

/-- Pace change (both inputs clamp: `setWpm(clamp(…, 60, 2000))`). -/
def rawSetWpm (w : ℚ) (st : AppState) : AppState :=
  { st with wpm := clampQ w 60 2000 }

/-- Source `applyPasted` of `ResumeHashDialog`, for a target track `tr`
(a member of the registry): no fingerprint, a decode failure or a
fingerprint mismatch only set a status message; on a full match the
decoded index is truncated, clamped against the current `maxLen` and
applied through `onApplyGlobalIndex`. -/
def applyPasted (tr : Track) (paste : List Nat) (st : AppState) : AppState :=
  match tr.fingerprint with
  | none => st
  | some fp =>
    match decodeResumeHash paste with
    | .error _ => st
    | .ok payload =>
      if payload.fp ≠ fp then st
      else
        let applied := clampI (jsTrunc payload.i) 0 (max 0 ((maxLen st : Int) - 1))
        { st with wordIndex := applied }

/-- Why an import can be rejected (`applyPasted` leaving the state
untouched): no loaded fingerprint, a decoder error, or a decoded
fingerprint differing from the target track's. -/
def importFails (tr : Track) (paste : List Nat) : Prop :=
  tr.fingerprint = none ∨
  (∃ e, decodeResumeHash paste = .error e) ∨
  (∃ fp payload, tr.fingerprint = some fp ∧
    decodeResumeHash paste = .ok payload ∧ payload.fp ≠ fp)

/-- The operations of the engine, as fired by the UI. -/
inductive Op : Type where
  | add : List Nat → Op
  | remove : List Nat → List Nat → Op
  | load : List Nat → List Nat → List (List Nat) → List Nat → Op
  | tick : Op
  | next : Op
  | prev : Op
  | seek : Int → Op
  | toggle : Op
  | setWpm : ℚ → Op
  | importTok : Nat → List Nat → Op

/-- The raw transition of one operation, before the reactive effects.
An import targets the dialog of the track at a registry position. -/
def rawStep : Op → AppState → AppState
  | .add newId, st => rawAdd newId st
  | .remove tid newId, st => rawRemove tid newId st
  | .load tid name tokens fp, st => rawLoad tid name tokens fp st
  | .tick, st => rawTick st
  | .next, st => rawNext st
  | .prev, st => rawPrev st
  | .seek n, st => rawSeek n st
  | .toggle, st => rawToggle st
  | .setWpm w, st => rawSetWpm w st
  | .importTok idx paste, st =>
    match st.tracks.get? idx with
    | some tr => applyPasted tr paste st
    | none => st

/-- A full engine step: the operation followed by the reactive effects. -/
def step (op : Op) (st : AppState) : AppState := runEffects (rawStep op st)

/-- The side condition the DOM enforces on a slider seek: the range input
keeps its value inside `[0, max(0, maxLen - 1)]`.  All other operations
are unrestricted. -/
def OpLegal : Op → AppState → Prop
  | .seek n, st => 0 ≤ n ∧ n ≤ max 0 ((maxLen st : Int) - 1)
  | _, _ => True

/-- The shared-cursor range invariant of the specification. -/
def IndexInv (st : AppState) : Prop :=
  (maxLen st = 0 → st.wordIndex = 0) ∧
  (0 < maxLen st → 0 ≤ st.wordIndex ∧ st.wordIndex ≤ (maxLen st : Int) - 1)

instance (st : AppState) : Decidable (IndexInv st) := by
  unfold IndexInv; infer_instance

/-! ## Helper lemmas about the engine -/

theorem maxLen_clampEffect (st : AppState) : maxLen (clampEffect st) = maxLen st := rfl

theorem maxLen_forcePauseEffect (st : AppState) :
    maxLen (forcePauseEffect st) = maxLen st := by
  unfold forcePauseEffect; split <;> rfl

theorem maxLen_runEffects (st : AppState) : maxLen (runEffects st) = maxLen st := by
  unfold runEffects; rw [maxLen_forcePauseEffect, maxLen_clampEffect]

theorem anyLoaded_clampEffect (st : AppState) :
    anyLoaded (clampEffect st) = anyLoaded st := rfl

theorem anyLoaded_forcePauseEffect (st : AppState) :
    anyLoaded (forcePauseEffect st) = anyLoaded st := by
  unfold forcePauseEffect; split <;> rfl

theorem anyLoaded_runEffects (st : AppState) :
    anyLoaded (runEffects st) = anyLoaded st := by
  unfold runEffects; rw [anyLoaded_forcePauseEffect, anyLoaded_clampEffect]

theorem foldl_max_pos (l : List Track) (a : Nat) :
    0 < l.foldl (fun m t => max m t.words.length) a ↔
      0 < a ∨ ∃ t ∈ l, 0 < t.words.length := by
  induction l generalizing a with
  | nil => simp
  | cons hd tl ih =>
    simp only [List.foldl_cons, ih, lt_max_iff, List.mem_cons]
    constructor
    · rintro ((h | h) | ⟨t, ht, hw⟩)
      · exact Or.inl h
      · exact Or.inr ⟨hd, Or.inl rfl, h⟩
      · exact Or.inr ⟨t, Or.inr ht, hw⟩
    · rintro (h | ⟨t, ht | ht, hw⟩)
      · exact Or.inl (Or.inl h)
      · exact Or.inl (Or.inr (ht ▸ hw))
      · exact Or.inr ⟨t, ht, hw⟩

theorem anyLoaded_iff_maxLen_pos (st : AppState) :
    anyLoaded st = true ↔ 0 < maxLen st := by
  unfold anyLoaded maxLen
  rw [List.any_eq_true, foldl_max_pos]
  constructor
  · rintro ⟨t, ht, hw⟩
    refine Or.inr ⟨t, ht, ?_⟩
    cases hws : t.words with
    | nil => rw [hws] at hw; simp at hw
    | cons x xs => simp [hws]
  · rintro (h | ⟨t, ht, hw⟩)
    · omega
    · exact ⟨t, ht, by cases hws : t.words with
        | nil => rw [hws] at hw; simp at hw
        | cons x xs => simp [hws]⟩

theorem indexInv_nonneg {st : AppState} (h : IndexInv st) : 0 ≤ st.wordIndex := by
  rcases Nat.eq_zero_or_pos (maxLen st) with h0 | h0
  · rw [h.1 h0]
  · exact (h.2 h0).1

theorem runEffects_indexInv (st : AppState) (h : 0 ≤ st.wordIndex) :
    IndexInv (runEffects st) := by
  have hml : maxLen (runEffects st) = maxLen st := maxLen_runEffects st
  have hwi : (runEffects st).wordIndex = (clampEffect st).wordIndex := by
    unfold runEffects forcePauseEffect
    split <;> rfl
  unfold IndexInv
  rw [hml, hwi]
  simp only [clampEffect]
  constructor
  · intro h0; simp [h0]
  · intro h0
    simp only [if_neg (by omega : ¬ maxLen st = 0)]
    refine ⟨le_min h (le_max_left 0 _), ?_⟩
    have hmr := min_le_right st.wordIndex (max 0 ((maxLen st : Int) - 1))
    omega

theorem forcePauseEffect_isPlaying (st : AppState) :
    (forcePauseEffect st).isPlaying = (st.isPlaying && anyLoaded st) := by
  unfold forcePauseEffect
  rcases hp : st.isPlaying with _ | _ <;> rcases hl : anyLoaded st with _ | _ <;>
    simp [hp, hl]

theorem runEffects_isPlaying (st : AppState) :
    (runEffects st).isPlaying = (st.isPlaying && anyLoaded st) := by
  unfold runEffects
  rw [forcePauseEffect_isPlaying, anyLoaded_clampEffect]
  rfl

theorem applyPasted_wordIndex_nonneg (tr : Track) (paste : List Nat)
    (st : AppState) (h : 0 ≤ st.wordIndex) :
    0 ≤ (applyPasted tr paste st).wordIndex := by
  unfold applyPasted
  rcases hf : tr.fingerprint with _ | fp
  · exact h
  · rcases hd : decodeResumeHash paste with e | payload
    · exact h
    · by_cases hm : payload.fp ≠ fp
      · simp only [if_pos hm]; exact h
      · simp only [if_neg hm]
        exact le_max_left 0 _

/-- A track of five one-word tokens with a loaded fingerprint, and the
state that plays it from index 0: the configuration of the auto-stop
test of the specification. -/
def track5 : Track :=
  ⟨strC "t5", strC "five", List.replicate 5 (strC "w"), some (strC "f5")⟩

/-- Playing `track5` from index 0 at 300 wpm. -/
def demoPlaying5 : AppState := ⟨[track5], 0, 300, true, false⟩

/-- C3: a rejected import (missing fingerprint, decode error of any kind,
or fingerprint mismatch) leaves the whole state — shared index, playing
flag, pace and all tracks — unchanged: the apply callback never runs. -/
theorem rejected_import_side_effect_free (tr : Track) (paste : List Nat)
    (st : AppState) (h : importFails tr paste) :
    applyPasted tr paste st = st := by
  unfold applyPasted
  rcases h with h0 | ⟨e, he⟩ | ⟨fp, payload, hfp, hok, hne⟩
  · rw [h0]
  · rcases hf : tr.fingerprint with _ | fp
    · rfl
    · rw [he]
  · rw [hfp, hok]
    simp [hne]

/-- Witness for C3 at a concrete rejected import (empty track, junk text). -/
theorem rejected_import_side_effect_free_witness :
    applyPasted (freshTrack (strC "a")) (strC "x") (initialState (strC "a")) =
      initialState (strC "a") :=
  rejected_import_side_effect_free _ _ _ (Or.inl rfl)

/-- C4: a successful import applies exactly
`clamp(Math.trunc(payload.i), 0, max(0, maxLen - 1))` against the current
`maxLen`, so an index exported against a longer document lands on the
last valid word; nothing else of the state changes. -/
theorem successful_import_truncate_clamp (tr : Track) (paste : List Nat)
    (st : AppState) (fp : List Nat) (payload : ResumePayloadV1)
    (hfp : tr.fingerprint = some fp)
    (hok : decodeResumeHash paste = .ok payload)
    (hmatch : payload.fp = fp) :
    (applyPasted tr paste st).wordIndex =
      clampI (jsTrunc payload.i) 0 (max 0 ((maxLen st : Int) - 1)) ∧
    (applyPasted tr paste st).tracks = st.tracks ∧
    (applyPasted tr paste st).isPlaying = st.isPlaying ∧
    (applyPasted tr paste st).wpm = st.wpm := by
  unfold applyPasted
  rw [hfp, hok]
  simp [hmatch]

/- The witness for C4 appears after the codec round-trip lemmas, which
provide the concrete successful decode it needs. -/

/-- C5: the shared-cursor range invariant — index 0 when no track has
tokens, index within `[0, maxLen - 1]` otherwise — holds initially and
is preserved by every operation (add, remove, load, tick, next, prev,
slider seek, toggle, pace change, import). -/
theorem shared_cursor_range_invariant :
    (∀ firstId, IndexInv (initialState firstId)) ∧
    (∀ (op : Op) (st : AppState), IndexInv st → OpLegal op st →
      IndexInv (step op st)) := by
  constructor
  · intro firstId
    constructor
    · intro _; rfl
    · intro h0
      simp [initialState, maxLen, freshTrack] at h0
  · intro op st hInv hLegal
    apply runEffects_indexInv
    have hnn : 0 ≤ st.wordIndex := indexInv_nonneg hInv
    cases op with
    | add newId => exact hnn
    | remove tid newId => exact hnn
    | load tid name tokens fp => simp [rawStep, rawLoad]
    | tick =>
      simp only [rawStep, rawTick]
      split
      · simp only []
        split
        · simp
        · refine le_min (by omega) (le_max_left 0 _)
      · exact hnn
    | next =>
      simp only [rawStep, rawNext]
      split
      · simp
      · refine le_min (by omega) (le_max_left 0 _)
    | prev =>
      simp only [rawStep, rawPrev]
      exact le_max_left 0 _
    | seek n => exact hLegal.1
    | toggle => exact hnn
    | setWpm w => exact hnn
    | importTok idx paste =>
      simp only [rawStep]
      rcases hg : st.tracks.get? idx with _ | tr
      · exact hnn
      · exact applyPasted_wordIndex_nonneg tr paste st hnn

/-- Witness for C5: the invariant after a concrete step from the playing
five-word state. -/
theorem shared_cursor_range_invariant_witness :
    IndexInv (step Op.next demoPlaying5) :=
  shared_cursor_range_invariant.2 Op.next demoPlaying5 (by decide) trivial

/-- C6: while playing, a tick advances to `min(i + 1, maxLen - 1)` and
pauses exactly when the new index reaches the final word; concretely,
from the playing five-word state, four ticks end paused at index 4 with
the timer gone, and a further tick changes nothing. -/
theorem tick_advance_and_autostop :
    (∀ st : AppState, tickEnabled st = true → 0 < maxLen st →
      (rawTick st).wordIndex = min (st.wordIndex + 1) ((maxLen st : Int) - 1) ∧
      ((rawTick st).wordIndex = (maxLen st : Int) - 1 →
        (rawTick st).isPlaying = false)) ∧
    ((step .tick)^[4] demoPlaying5).wordIndex = 4 ∧
    ((step .tick)^[4] demoPlaying5).isPlaying = false ∧
    tickEnabled ((step .tick)^[4] demoPlaying5) = false ∧
    step .tick ((step .tick)^[4] demoPlaying5) = (step .tick)^[4] demoPlaying5 := by
  refine ⟨?_, by decide, by decide, by decide, by decide⟩
  intro st hEn hPos
  have hml : ¬ maxLen st = 0 := by omega
  have heq : rawTick st =
      { st with
        wordIndex := min (st.wordIndex + 1) (max 0 ((maxLen st : Int) - 1)),
        isPlaying :=
          if maxLen st ≠ 0 ∧ (maxLen st : Int) - 1 ≤
              min (st.wordIndex + 1) (max 0 ((maxLen st : Int) - 1)) then false
          else st.isPlaying } := by
    simp [rawTick, hEn, hml]
  rw [heq]
  constructor
  · simp only []
    omega
  · intro hend
    simp only [] at hend ⊢
    split
    · rfl
    · next hcond => exact absurd ⟨hml, by omega⟩ hcond

/-- Witness for C6 at the concrete playing state. -/
theorem tick_advance_and_autostop_witness :
    (rawTick demoPlaying5).wordIndex =
      min (demoPlaying5.wordIndex + 1) ((maxLen demoPlaying5 : Int) - 1) :=
  (tick_advance_and_autostop.1 demoPlaying5 (by decide) (by decide)).1

/-- C7: after the reactive effects the index is re-clamped into range;
when `maxLen` collapses to 0 the index resets to 0 and the state is
forcibly paused; every stepped state playing implies a loaded track; and
a play toggle with no content leaves the engine paused. -/
theorem never_playing_without_content :
    (∀ st : AppState, 0 ≤ st.wordIndex → 0 < maxLen st →
      0 ≤ (runEffects st).wordIndex ∧
        (runEffects st).wordIndex ≤ (maxLen st : Int) - 1) ∧
    (∀ st : AppState, maxLen st = 0 →
      (runEffects st).wordIndex = 0 ∧ (runEffects st).isPlaying = false) ∧
    (∀ (op : Op) (st : AppState), (step op st).isPlaying = true →
      anyLoaded (step op st) = true) ∧
    (∀ st : AppState, anyLoaded st = false →
      (step Op.toggle st).isPlaying = false) := by
  refine ⟨?_, ?_, ?_, ?_⟩
  · intro st h h0
    have := runEffects_indexInv st h
    have h0e : 0 < maxLen (runEffects st) := by rw [maxLen_runEffects]; exact h0
    have := this.2 h0e
    rw [maxLen_runEffects] at this
    exact this
  · intro st h0
    have hwi : (runEffects st).wordIndex = (clampEffect st).wordIndex := by
      unfold runEffects forcePauseEffect
      split <;> rfl
    have hz : (clampEffect st).wordIndex = 0 := by simp [clampEffect, h0]
    refine ⟨by rw [hwi, hz], ?_⟩
    rw [runEffects_isPlaying]
    have hl : anyLoaded st = false := by
      rcases hl2 : anyLoaded st with _ | _
      · rfl
      · exact absurd ((anyLoaded_iff_maxLen_pos st).mp hl2) (by omega)
    simp [hl]
  · intro op st hp
    simp only [step] at hp ⊢
    rw [anyLoaded_runEffects]
    rw [runEffects_isPlaying] at hp
    exact ((Bool.and_eq_true _ _).mp hp).2
  · intro st hl
    simp only [step]
    rw [runEffects_isPlaying]
    have h2 : anyLoaded (rawStep Op.toggle st) = false := hl
    simp [h2]

/-- Witness for C7: a play toggle on the empty initial state stays paused. -/
theorem never_playing_without_content_witness :
    (step Op.toggle (initialState (strC "a"))).isPlaying = false :=
  never_playing_without_content.2.2.2 _ (by decide)

/-- C8: the tick period is `Math.round(60000 / w)` for the pace `w`
clamped into the configured bound `[60, 2000]`, and the clamp is the
identity on values already inside the bound. -/
theorem pace_to_period (w : ℚ) :
    intervalMs w = jsRound (60000 / clampQ w 60 2000) ∧
    60 ≤ clampQ w 60 2000 ∧ clampQ w 60 2000 ≤ 2000 ∧
    (60 ≤ w → w ≤ 2000 → clampQ w 60 2000 = w) := by
  refine ⟨rfl, le_max_left _ _, ?_, ?_⟩
  · exact max_le (by norm_num) (min_le_left _ _)
  · intro h1 h2
    unfold clampQ
    rw [min_eq_right h2, max_eq_right h1]

/-- Witness for C8 at the default pace 300 (period 200 ms). -/
theorem pace_to_period_witness :
    intervalMs 300 = jsRound (60000 / clampQ 300 60 2000) ∧
    clampQ (300 : ℚ) 60 2000 = 300 ∧ intervalMs 300 = 200 :=
  ⟨(pace_to_period 300).1, (pace_to_period 300).2.2.2 (by norm_num) (by norm_num),
    by norm_num [intervalMs, clampQ, jsRound]⟩

/-- C9: removing an id not present in a (never empty) registry is a
no-op; removing the sole remaining track leaves exactly one
freshly-reset empty track; and a registry never has fewer than one track
after any removal. -/
theorem registry_removal_semantics (tid newId : List Nat) (tracks : List Track)
    (tr : Track) :
    (tracks ≠ [] → (∀ t ∈ tracks, t.id ≠ tid) →
      removeTrack tid newId tracks = tracks) ∧
    removeTrack tr.id newId [tr] = [freshTrack newId] ∧
    1 ≤ (removeTrack tid newId tracks).length := by
  refine ⟨?_, ?_, ?_⟩
  · intro hne hniq
    unfold removeTrack
    have hfilter : tracks.filter (fun t => t.id ≠ tid) = tracks := by
      apply List.filter_eq_self.mpr
      intro t ht
      simpa using hniq t ht
    rw [hfilter]
    simp [List.isEmpty_iff, hne]
  · unfold removeTrack
    simp
  · simp only [removeTrack]
    split
    · simp
    · next hne =>
      cases hc : List.filter (fun t => decide (t.id ≠ tid)) tracks with
      | nil => rw [hc] at hne; simp at hne
      | cons x xs => simp

/-- Witness for C9: removing an absent id from the initial registry. -/
theorem registry_removal_semantics_witness :
    removeTrack (strC "zz") (strC "b") [freshTrack (strC "a")] =
      [freshTrack (strC "a")] :=
  (registry_removal_semantics (strC "zz") (strC "b") [freshTrack (strC "a")]
    (freshTrack (strC "a"))).1 (by simp) (by decide)

/-! ## Whitespace tolerance of the decoder (C10) -/

theorem dropWhile_append_of_forall (w l : List Nat)
    (hw : ∀ c ∈ w, jsWsB c = true) :
    (w ++ l).dropWhile jsWsB = l.dropWhile jsWsB := by
  induction w with
  | nil => rfl
  | cons a w ih =>
    simp only [List.cons_append, List.dropWhile_cons]
    rw [if_pos (hw a (by simp))]
    exact ih (fun c hc => hw c (by simp [hc]))

theorem dropWhile_append_of_ne_nil (t l : List Nat)
    (h : t.dropWhile jsWsB ≠ []) :
    (t ++ l).dropWhile jsWsB = t.dropWhile jsWsB ++ l := by
  induction t with
  | nil => simp at h
  | cons a t ih =>
    simp only [List.cons_append, List.dropWhile_cons] at h ⊢
    by_cases hp : jsWsB a = true
    · simp only [if_pos hp] at h ⊢
      exact ih h
    · simp [hp]

theorem jsTrim_sandwich (t w1 w2 : List Nat)
    (h1 : ∀ c ∈ w1, jsWsB c = true) (h2 : ∀ c ∈ w2, jsWsB c = true) :
    jsTrim (w1 ++ t ++ w2) = jsTrim t := by
  unfold jsTrim
  rw [List.append_assoc, dropWhile_append_of_forall w1 _ h1]
  by_cases hA : t.dropWhile jsWsB = []
  · rw [dropWhile_append_of_forall t w2 (List.dropWhile_eq_nil_iff.mp hA),
      List.dropWhile_eq_nil_iff.mpr h2, hA]
  · rw [dropWhile_append_of_ne_nil t w2 hA, List.reverse_append,
      dropWhile_append_of_forall w2.reverse _ (by simpa using h2)]

/-- C10: surrounding JS white space on a pasted token never changes the
decode result — `decodeResumeHash` trims before any other step. -/
theorem decoder_whitespace_tolerance (t w1 w2 : List Nat)
    (h1 : ∀ c ∈ w1, jsWsB c = true) (h2 : ∀ c ∈ w2, jsWsB c = true) :
    decodeResumeHash (w1 ++ t ++ w2) = decodeResumeHash t := by
  unfold decodeResumeHash
  rw [jsTrim_sandwich t w1 w2 h1 h2]

/-- Witness for C10: a concrete token wrapped in a space and a newline. -/
theorem decoder_whitespace_tolerance_witness :
    decodeResumeHash (strC " " ++ strC "sr1.bnVsbA" ++ strC "\n") =
      decodeResumeHash (strC "sr1.bnVsbA") :=
  decoder_whitespace_tolerance (strC "sr1.bnVsbA") (strC " ") (strC "\n")
    (by decide) (by decide)

/-! ## Base64 round trip -/

/-- The sextet values of `btoaBody`, before the alphabet mapping. -/
def sextetVals : List Nat → List Nat
  | b1 :: b2 :: b3 :: t =>
      b1 / 4 :: (b1 % 4 * 16 + b2 / 16) ::
      (b2 % 16 * 4 + b3 / 64) :: b3 % 64 :: sextetVals t
  | [b1] => [b1 / 4, b1 % 4 * 16]
  | [b1, b2] => [b1 / 4, b1 % 4 * 16 + b2 / 16, b2 % 16 * 4]
  | [] => []

theorem b64Index_b64c : ∀ i < 64, b64Index (b64c i) = some i := by decide

theorem b64c_class : ∀ i < 64,
    urlUnrepl (urlRepl (b64c i)) = b64c i ∧ urlRepl (b64c i) ≠ 61 ∧
    asciiWsB (b64c i) = false ∧ jsWsB (urlRepl (b64c i)) = false ∧
    b64c i ≠ 61 := by decide

theorem btoaBody_eq_map (bytes : List Nat) :
    btoaBody bytes = (sextetVals bytes).map b64c := by
  induction bytes using btoaBody.induct with
  | case1 b1 b2 b3 t ih => simp [btoaBody, sextetVals, ih]
  | case2 b1 => rfl
  | case3 b1 b2 => rfl
  | case4 => rfl

theorem sextetVals_lt (bytes : List Nat) (h : ∀ b ∈ bytes, b < 256) :
    ∀ v ∈ sextetVals bytes, v < 64 := by
  induction bytes using sextetVals.induct with
  | case1 b1 b2 b3 t ih =>
    have h1 := h b1 (by simp)
    have h2 := h b2 (by simp)
    have h3 := h b3 (by simp)
    intro v hv
    simp only [sextetVals, List.mem_cons] at hv
    rcases hv with rfl | rfl | rfl | rfl | hv
    · omega
    · omega
    · omega
    · omega
    · exact ih (fun b hb => h b (by simp [hb])) v hv
  | case2 b1 =>
    have h1 := h b1 (by simp)
    intro v hv
    simp only [sextetVals, List.mem_cons] at hv
    rcases hv with rfl | rfl | hv
    · omega
    · omega
    · simp at hv
  | case3 b1 b2 =>
    have h1 := h b1 (by simp)
    have h2 := h b2 (by simp)
    intro v hv
    simp only [sextetVals, List.mem_cons] at hv
    rcases hv with rfl | rfl | rfl | hv
    · omega
    · omega
    · omega
    · simp at hv
  | case4 => intro v hv; simp [sextetVals] at hv

theorem decodeSextets_sextetVals (bytes : List Nat) (h : ∀ b ∈ bytes, b < 256) :
    decodeSextets (sextetVals bytes) = bytes := by
  induction bytes using sextetVals.induct with
  | case1 b1 b2 b3 t ih =>
    have h1 := h b1 (by simp)
    have h2 := h b2 (by simp)
    have h3 := h b3 (by simp)
    simp only [sextetVals, decodeSextets]
    rw [ih (fun b hb => h b (by simp [hb]))]
    congr 1
    · omega
    · congr 1
      · omega
      · congr 1
        omega
  | case2 b1 =>
    have h1 := h b1 (by simp)
    simp only [sextetVals, decodeSextets]
    congr 1
    omega
  | case3 b1 b2 =>
    have h1 := h b1 (by simp)
    have h2 := h b2 (by simp)
    simp only [sextetVals, decodeSextets]
    congr 1
    · omega
    · congr 1
      omega
  | case4 => rfl

theorem btoaGroups_decomp (bytes : List Nat) :
    btoaGroups bytes =
      btoaBody bytes ++ List.replicate ((3 - bytes.length % 3) % 3) 61 := by
  induction bytes using btoaBody.induct with
  | case1 b1 b2 b3 t ih =>
    simp only [btoaGroups, btoaBody, ih, List.length_cons, List.cons_append]
    have : (t.length + 1 + 1 + 1) % 3 = t.length % 3 := by omega
    rw [this]
  | case2 b1 => rfl
  | case3 b1 b2 => rfl
  | case4 => rfl

theorem btoaBody_length (bytes : List Nat) :
    (btoaBody bytes).length = (bytes.length * 4 + 2) / 3 := by
  induction bytes using btoaBody.induct with
  | case1 b1 b2 b3 t ih =>
    simp only [btoaBody, List.length_cons, ih]
    omega
  | case2 b1 => simp [btoaBody]
  | case3 b1 b2 => simp [btoaBody]
  | case4 => rfl

theorem dropWhile_append_all {α : Type} (p : α → Bool) (w l : List α)
    (hw : ∀ c ∈ w, p c = true) : (w ++ l).dropWhile p = l.dropWhile p := by
  induction w with
  | nil => rfl
  | cons a w ih =>
    simp only [List.cons_append, List.dropWhile_cons]
    rw [if_pos (hw a (by simp))]
    exact ih (fun c hc => hw c (by simp [hc]))

theorem dropWhile_eq_self_of_all {α : Type} (p : α → Bool) (l : List α)
    (hl : ∀ c ∈ l, p c = false) : l.dropWhile p = l := by
  cases l with
  | nil => rfl
  | cons a t =>
    rw [List.dropWhile_cons, if_neg (by simp [hl a (by simp)])]

theorem stripTrailingEq_append_replicate (x : List Nat) (k : Nat) :
    stripTrailingEq (x ++ List.replicate k 61) = stripTrailingEq x := by
  unfold stripTrailingEq
  rw [List.reverse_append, List.reverse_replicate,
    dropWhile_append_all _ _ _ (fun c hc => by
      simp only [List.mem_replicate] at hc
      simp [hc.2])]

theorem stripTrailingEq_eq_self (x : List Nat) (hx : ∀ c ∈ x, c ≠ 61) :
    stripTrailingEq x = x := by
  unfold stripTrailingEq
  rw [dropWhile_eq_self_of_all _ _ (fun c hc => by
      simp [hx c (List.mem_reverse.mp hc)]), List.reverse_reverse]

theorem stripAtobPadding_append (body : List Nat) (p : Nat) (hp : p ≤ 2)
    (hb : ∀ c ∈ body, c ≠ 61) (hne : body ≠ []) :
    stripAtobPadding (body ++ List.replicate p 61) = body := by
  obtain ⟨c, rest, hrev⟩ : ∃ c rest, body.reverse = c :: rest := by
    cases hb2 : body.reverse with
    | nil => exact absurd (by simpa using congrArg List.reverse hb2) hne
    | cons c rest => exact ⟨c, rest, rfl⟩
  have hc : c ≠ 61 := hb c (by rw [← List.mem_reverse, hrev]; simp)
  have hback : (c :: rest).reverse = body := by rw [← hrev, List.reverse_reverse]
  unfold stripAtobPadding
  rw [List.reverse_append, List.reverse_replicate, hrev]
  interval_cases p
  · simp only [List.replicate, List.nil_append]
    split
    · next heq =>
      injection heq with h1 h2
      omega
    · next heq =>
      injection heq with h1 h2
      omega
    · simp
  · simp only [List.replicate, List.singleton_append]
    split
    · next heq =>
      injection heq with h1 h2
      injection h2 with h3 h4
      omega
    · next r heq =>
      injection heq with h1 h2
      rw [← h2]
      exact hback
    · next hno1 hno2 => exact absurd rfl (hno2 (c :: rest))
  · simp only [List.replicate, List.cons_append, List.nil_append]
    exact hback

theorem mapM_b64Index_map (vals : List Nat) (h : ∀ v ∈ vals, v < 64) :
    (vals.map b64c).mapM b64Index = some vals := by
  induction vals with
  | nil => rfl
  | cons v t ih =>
    simp only [List.map_cons, List.mapM_cons, b64Index_b64c v (h v (by simp)),
      ih (fun x hx => h x (by simp [hx]))]
    rfl

theorem base64_roundtrip (bytes : List Nat) (h : ∀ b ∈ bytes, b < 256) :
    base64UrlDecode (base64UrlEncode bytes) = some bytes := by
  by_cases hnil : bytes = []
  · subst hnil; rfl
  have hvals := sextetVals_lt bytes h
  have hbody : btoaBody bytes = (sextetVals bytes).map b64c := btoaBody_eq_map bytes
  have hlen := btoaBody_length bytes
  have hn1 : 1 ≤ bytes.length := by
    cases hc : bytes with
    | nil => exact absurd hc hnil
    | cons a t => simp [hc]
  have hbodyne : btoaBody bytes ≠ [] := by
    intro hx
    rw [hx] at hlen
    simp at hlen
    omega
  have hbody61 : ∀ c ∈ btoaBody bytes, c ≠ 61 := by
    intro c hcx
    rw [hbody] at hcx
    obtain ⟨v, hvmem, rfl⟩ := List.mem_map.mp hcx
    exact (b64c_class v (hvals v hvmem)).2.2.2.2
  have henc : base64UrlEncode bytes = (btoaBody bytes).map urlRepl := by
    unfold base64UrlEncode
    rw [btoaGroups_decomp, List.map_append, List.map_replicate,
      show urlRepl 61 = 61 from rfl, stripTrailingEq_append_replicate,
      stripTrailingEq_eq_self]
    intro c hcx
    obtain ⟨d, hdmem, rfl⟩ := List.mem_map.mp hcx
    rw [hbody] at hdmem
    obtain ⟨v, hvmem, rfl⟩ := List.mem_map.mp hdmem
    exact (b64c_class v (hvals v hvmem)).2.1
  have hunrepl : ((btoaBody bytes).map urlRepl).map urlUnrepl = btoaBody bytes := by
    rw [List.map_map]
    have hpt : ∀ c ∈ btoaBody bytes, (urlUnrepl ∘ urlRepl) c = id c := by
      intro c hcx
      rw [hbody] at hcx
      obtain ⟨v, hvmem, rfl⟩ := List.mem_map.mp hcx
      exact (b64c_class v (hvals v hvmem)).1
    rw [List.map_congr_left hpt, List.map_id]
  rw [henc]
  unfold base64UrlDecode
  rw [List.length_map] at *
  set L := (btoaBody bytes).length with hL
  set pad := (4 - L % 4) % 4 with hpad
  rw [List.map_append, hunrepl, List.map_replicate,
    show urlUnrepl 61 = 61 from rfl]
  have hL4 : L % 4 ≠ 1 := by omega
  have hpadle : pad ≤ 2 := by omega
  have hsum : (L + pad) % 4 = 0 := by omega
  unfold atob
  have hfil : (btoaBody bytes ++ List.replicate pad 61).filter
      (fun c => !asciiWsB c) = btoaBody bytes ++ List.replicate pad 61 := by
    apply List.filter_eq_self.mpr
    intro a ha
    rcases List.mem_append.mp ha with ha1 | ha2
    · rw [hbody] at ha1
      obtain ⟨v, hvmem, rfl⟩ := List.mem_map.mp ha1
      simp [(b64c_class v (hvals v hvmem)).2.2.1]
    · simp only [List.mem_replicate] at ha2
      rw [ha2.2]
      rfl
  have hlenapp : (btoaBody bytes ++ List.replicate pad 61).length = L + pad := by
    simp
  simp only [hfil]
  rw [hlenapp, if_pos hsum,
    stripAtobPadding_append (btoaBody bytes) pad hpadle hbody61 hbodyne,
    if_neg (by rw [← hL]; exact hL4), hbody,
    mapM_b64Index_map (sextetVals bytes) hvals]
  simp only [Option.map_some']
  rw [decodeSextets_sextetVals bytes h]

/-! ## UTF-8 round trip -/

theorem utf8EncodeChar_lt (c : Nat) (hv : ValidScalar c) :
    ∀ b ∈ utf8EncodeChar c, b < 256 := by
  intro b hb
  have hvd : c < 0xD800 ∨ (0xDFFF < c ∧ c < 0x110000) := hv
  unfold utf8EncodeChar at hb
  by_cases h1 : c < 0x80
  · rw [if_pos h1] at hb
    simp only [List.mem_singleton] at hb
    omega
  · rw [if_neg h1] at hb
    by_cases h2 : c < 0x800
    · rw [if_pos h2] at hb
      simp only [List.mem_cons, List.not_mem_nil, or_false] at hb
      rcases hb with rfl | rfl <;> omega
    · rw [if_neg h2] at hb
      by_cases h3 : c < 0x10000
      · rw [if_pos h3] at hb
        simp only [List.mem_cons, List.not_mem_nil, or_false] at hb
        rcases hb with rfl | rfl | rfl <;> omega
      · rw [if_neg h3] at hb
        simp only [List.mem_cons, List.not_mem_nil, or_false] at hb
        rcases hb with rfl | rfl | rfl | rfl <;>
          rcases hvd with hvd | hvd <;> omega

theorem utf8Decode_encChar (c : Nat) (hv : ValidScalar c) (rest : List Nat) :
    utf8Decode (utf8EncodeChar c ++ rest) = c :: utf8Decode rest := by
  have hvd : c < 0xD800 ∨ (0xDFFF < c ∧ c < 0x110000) := hv
  by_cases h1 : c < 0x80
  · simp only [utf8EncodeChar, if_pos h1, List.cons_append, List.nil_append]
    rw [utf8Decode.eq_def]
    simp only
    rw [if_pos h1]
  · by_cases h2 : c < 0x800
    · simp only [utf8EncodeChar, if_neg h1, if_pos h2, List.cons_append,
        List.nil_append]
      rw [utf8Decode.eq_def]
      simp only
      rw [if_neg (by omega), if_pos (by omega), if_pos (by omega)]
      congr 1
      omega
    · by_cases h3 : c < 0x10000
      · simp only [utf8EncodeChar, if_neg h1, if_neg h2, if_pos h3,
          List.cons_append, List.nil_append]
        rw [utf8Decode.eq_def]
        simp only
        rw [if_neg (by omega), if_neg (by omega), if_pos (by omega)]
        rw [if_pos (by
          constructor
          · split <;> rcases hvd with hvd | hvd <;> omega
          · split <;> rcases hvd with hvd | hvd <;> omega)]
        rw [if_pos (by omega)]
        congr 1
        omega
      · simp only [utf8EncodeChar, if_neg h1, if_neg h2, if_neg h3,
          List.cons_append, List.nil_append]
        rw [utf8Decode.eq_def]
        simp only
        rw [if_neg (by omega), if_neg (by omega), if_neg (by omega),
          if_pos (by rcases hvd with hvd | hvd <;> omega)]
        rw [if_pos (by
          constructor
          · split <;> rcases hvd with hvd | hvd <;> omega
          · split <;> rcases hvd with hvd | hvd <;> omega)]
        rw [if_pos (by omega), if_pos (by omega)]
        congr 1
        rcases hvd with hvd | hvd <;> omega

theorem utf8_roundtrip (s : List Nat) (hv : ValidStr s) :
    utf8Decode (utf8Encode s) = s := by
  induction s with
  | nil =>
    rw [show utf8Encode [] = [] from rfl, utf8Decode.eq_def]
  | cons c t ih =>
    unfold utf8Encode
    rw [List.flatMap_cons,
      utf8Decode_encChar c (hv c (by simp)) (t.flatMap utf8EncodeChar)]
    exact congrArg _ (ih (fun x hx => hv x (by simp [hx])))

theorem utf8Encode_lt (s : List Nat) (hv : ValidStr s) :
    ∀ b ∈ utf8Encode s, b < 256 := by
  intro b hb
  unfold utf8Encode at hb
  rw [List.mem_flatMap] at hb
  obtain ⟨c, hc, hbc⟩ := hb
  exact utf8EncodeChar_lt c (hv c hc) b hbc

/-! ## JSON string literal round trip -/

theorem hexVal_hexDigit (d : Nat) (h : d < 16) : hexVal (hexDigit d) = some d := by
  unfold hexVal hexDigit
  by_cases h10 : d < 10
  · rw [if_pos h10, if_pos (by omega)]
    congr 1
    omega
  · rw [if_neg h10, if_neg (by omega), if_pos (by omega)]
    congr 1
    omega

theorem lexStringBody_escStr (s : List Nat) (hv : ValidStr s) (rest : List Nat) :
    lexStringBody (escStr s ++ 34 :: rest) = some (s, rest) := by
  induction s with
  | nil =>
    rw [show escStr [] ++ 34 :: rest = 34 :: rest from rfl, lexStringBody.eq_def]
  | cons c t ih =>
    have hvc : ValidScalar c := hv c (by simp)
    have hvd : c < 0xD800 ∨ (0xDFFF < c ∧ c < 0x110000) := hvc
    have iht := ih (fun x hx => hv x (by simp [hx]))
    rw [show escStr (c :: t) = escChar c ++ escStr t from rfl, List.append_assoc]
    unfold escChar
    by_cases h34 : c = 34
    · subst h34
      rw [if_pos rfl]
      simp only [List.cons_append, List.nil_append]
      rw [lexStringBody.eq_def]
      simp only [consCh, iht]
      rfl
    rw [if_neg h34]
    by_cases h92 : c = 92
    · subst h92
      rw [if_pos rfl]
      simp only [List.cons_append, List.nil_append]
      rw [lexStringBody.eq_def]
      simp only [consCh, iht]
      rfl
    rw [if_neg h92]
    by_cases h8 : c = 8
    · subst h8
      rw [if_pos rfl]
      simp only [List.cons_append, List.nil_append]
      rw [lexStringBody.eq_def]
      simp only [consCh, iht]
      rfl
    rw [if_neg h8]
    by_cases h9 : c = 9
    · subst h9
      rw [if_pos rfl]
      simp only [List.cons_append, List.nil_append]
      rw [lexStringBody.eq_def]
      simp only [consCh, iht]
      rfl
    rw [if_neg h9]
    by_cases h10 : c = 10
    · subst h10
      rw [if_pos rfl]
      simp only [List.cons_append, List.nil_append]
      rw [lexStringBody.eq_def]
      simp only [consCh, iht]
      rfl
    rw [if_neg h10]
    by_cases h12 : c = 12
    · subst h12
      rw [if_pos rfl]
      simp only [List.cons_append, List.nil_append]
      rw [lexStringBody.eq_def]
      simp only [consCh, iht]
      rfl
    rw [if_neg h12]
    by_cases h13 : c = 13
    · subst h13
      rw [if_pos rfl]
      simp only [List.cons_append, List.nil_append]
      rw [lexStringBody.eq_def]
      simp only [consCh, iht]
      rfl
    rw [if_neg h13]
    by_cases hctl : c < 32
    · rw [if_pos hctl]
      simp only [List.cons_append, List.nil_append]
      rw [lexStringBody.eq_def]
      simp only [show hexVal 48 = some 0 from rfl,
        hexVal_hexDigit (c / 16) (by omega), hexVal_hexDigit (c % 16) (by omega)]
      rw [show (0 : Nat) * 4096 + 0 * 256 + c / 16 * 16 + c % 16 = c from by omega]
      unfold lexUEscape
      rw [if_neg (by omega), if_neg (by omega)]
      simp only [consCh, iht]
      rfl
    · rw [if_neg hctl]
      simp only [List.cons_append, List.nil_append]
      rw [lexStringBody.eq_def]
      split
      all_goals try (next heq =>
        first
        | (injection heq with hinj1 hinj2; omega)
        | (apply absurd heq; simp; done)
        | (exfalso; simp only [List.cons.injEq] at heq; omega))
      next heq =>
        injection heq with hinj1 hinj2
        subst hinj1
        subst hinj2
        rw [if_neg hctl]
        simp only [consCh, iht]
        rfl

/-! ## Decimal digits and the JSON number lexer -/

theorem natDigits_ne_nil (n : Nat) : natDigits n ≠ [] := by
  unfold natDigits
  split
  · simp
  · simp

theorem natDigits_digits (n : Nat) : ∀ c ∈ natDigits n, isDigitB c = true := by
  induction n using natDigits.induct with
  | case1 n h =>
    intro c hc
    unfold natDigits at hc
    rw [dif_pos h] at hc
    simp only [List.mem_singleton] at hc
    subst hc
    simp [isDigitB]
    omega
  | case2 n h ih =>
    intro c hc
    unfold natDigits at hc
    rw [dif_neg h] at hc
    rcases List.mem_append.mp hc with hc1 | hc2
    · exact ih c hc1
    · simp only [List.mem_singleton] at hc2
      subst hc2
      simp [isDigitB]
      omega

theorem digitsVal_aux (n : Nat) : ∀ acc : Nat,
    (natDigits n).foldl (fun a c => a * 10 + (c - 48)) acc =
      acc * 10 ^ (natDigits n).length + n := by
  induction n using natDigits.induct with
  | case1 n h =>
    intro acc
    unfold natDigits
    rw [dif_pos h]
    simp
  | case2 n h ih =>
    intro acc
    unfold natDigits
    rw [dif_neg h]
    rw [List.foldl_append, ih acc]
    simp only [List.foldl_cons, List.foldl_nil, List.length_append,
      List.length_singleton]
    rw [pow_succ]
    have hmod : n % 10 ≤ 9 := by omega
    have : 48 + n % 10 - 48 = n % 10 := by omega
    rw [this]
    have hdm := Nat.div_add_mod n 10
    ring_nf
    omega

theorem digitsVal_natDigits (n : Nat) : digitsVal (natDigits n) = n := by
  unfold digitsVal
  rw [digitsVal_aux n 0]
  simp

theorem natDigits_headD_ne (n : Nat) (h1 : 1 ≤ n) :
    (natDigits n).headD 0 ≠ 48 := by
  induction n using natDigits.induct with
  | case1 n h =>
    unfold natDigits
    rw [dif_pos h]
    simp
    omega
  | case2 n h ih =>
    unfold natDigits
    rw [dif_neg h]
    obtain ⟨d, ds, hds⟩ := List.exists_cons_of_ne_nil (natDigits_ne_nil (n / 10))
    have := ih (by omega)
    rw [hds] at this ⊢
    simpa using this

theorem natDigits_no_leading_zero (n : Nat) :
    ¬(1 < (natDigits n).length ∧ (natDigits n).headD 0 = 48) := by
  rintro ⟨hlen, hhead⟩
  rcases Nat.eq_zero_or_pos n with rfl | hpos
  · have h0 : natDigits 0 = [48] := by
      unfold natDigits
      rw [dif_pos (by omega)]
    rw [h0] at hlen
    simp at hlen
  · exact natDigits_headD_ne n hpos hhead

theorem takeWhile_append_not {α : Type} (p : α → Bool) (l1 : List α) (c : α)
    (r : List α) (hl : ∀ x ∈ l1, p x = true) (hc : p c = false) :
    (l1 ++ c :: r).takeWhile p = l1 := by
  induction l1 with
  | nil => simp [List.takeWhile_cons, hc]
  | cons a t ih =>
    rw [List.cons_append, List.takeWhile_cons, if_pos (hl a (by simp)),
      ih (fun x hx => hl x (by simp [hx]))]

theorem dropWhile_append_not {α : Type} (p : α → Bool) (l1 : List α) (c : α)
    (r : List α) (hl : ∀ x ∈ l1, p x = true) (hc : p c = false) :
    (l1 ++ c :: r).dropWhile p = c :: r := by
  induction l1 with
  | nil => simp [List.dropWhile_cons, hc]
  | cons a t ih =>
    rw [List.cons_append, List.dropWhile_cons, if_pos (hl a (by simp))]
    exact ih (fun x hx => hl x (by simp [hx]))

theorem lexNumber_natDigits (i : Nat) (c : Nat) (r : List Nat)
    (hc : c = 44 ∨ c = 125) :
    lexNumber (natDigits i ++ c :: r) = some ((i : ℚ), c :: r) := by
  obtain ⟨d, ds, hds⟩ := List.exists_cons_of_ne_nil (natDigits_ne_nil i)
  have hd : isDigitB d = true := natDigits_digits i d (by rw [hds]; simp)
  have hdb : 48 ≤ d ∧ d ≤ 57 := by
    unfold isDigitB at hd
    simp at hd
    omega
  have htw : (natDigits i ++ c :: r).takeWhile isDigitB = natDigits i :=
    takeWhile_append_not _ _ _ _ (natDigits_digits i)
      (by rcases hc with rfl | rfl <;> rfl)
  have hdw : (natDigits i ++ c :: r).dropWhile isDigitB = c :: r :=
    dropWhile_append_not _ _ _ _ (natDigits_digits i)
      (by rcases hc with rfl | rfl <;> rfl)
  unfold lexNumber
  split
  · next r2 heq =>
    exfalso
    rw [hds, List.cons_append] at heq
    injection heq with hinj1 hinj2
    omega
  · simp only [htw, hdw, digitsVal_natDigits]
    rw [if_neg (by simp [natDigits_ne_nil i]),
      if_neg (natDigits_no_leading_zero i)]
    rcases hc with rfl | rfl
    · norm_num
    · norm_num

/-! ## Parsing the serialised payload back -/

/-- The object fields produced by parsing a stringified payload. -/
def payloadFields (p : ResumePayloadV1) : List (List Nat × JValue) :=
  [(strC "v", .jnum 1), (strC "fp", .jstr p.fp), (strC "i", .jnum p.i)] ++
  (match p.n with
   | some nv => [(strC "n", .jstr nv)]
   | none => []) ++
  (match p.w with
   | some wv => [(strC "w", .jstr wv)]
   | none => [])

theorem skipWs_cons (c : Nat) (r : List Nat) (hc : jsonWsB c = false) :
    skipWs (c :: r) = c :: r := by
  unfold skipWs
  rw [List.dropWhile_cons, if_neg (by simp [hc])]

theorem parseVal_jstr (f : Nat) (s : List Nat) (hv : ValidStr s)
    (rest : List Nat) :
    parseVal (f + 1) (34 :: (escStr s ++ 34 :: rest)) =
      some (.jstr s, rest) := by
  rw [parseVal]
  rw [skipWs_cons 34 _ rfl]
  simp only [lexStringBody_escStr s hv rest]
  rfl

theorem parseVal_jnum (f : Nat) (i : Nat) (c : Nat) (r : List Nat)
    (hc : c = 44 ∨ c = 125) :
    parseVal (f + 1) (natDigits i ++ c :: r) =
      some (.jnum (i : ℚ), c :: r) := by
  obtain ⟨d, ds, hds⟩ := List.exists_cons_of_ne_nil (natDigits_ne_nil i)
  have hd : isDigitB d = true := natDigits_digits i d (by rw [hds]; simp)
  have hdb : 48 ≤ d ∧ d ≤ 57 := by
    unfold isDigitB at hd
    simp at hd
    omega
  have hskip : skipWs (natDigits i ++ c :: r) = natDigits i ++ c :: r := by
    rw [hds, List.cons_append]
    exact skipWs_cons d _ (by unfold jsonWsB; simp; omega)
  rw [parseVal, hskip]
  have hlex := lexNumber_natDigits i c r hc
  split
  · next heq =>
    exfalso
    rw [hds, List.cons_append] at heq
    injection heq with hinj1 hinj2
    omega
  · next heq =>
    exfalso
    rw [hds, List.cons_append] at heq
    injection heq with hinj1 hinj2
    omega
  · next heq =>
    exfalso
    rw [hds, List.cons_append] at heq
    injection heq with hinj1 hinj2
    omega
  · next heq =>
    exfalso
    rw [hds, List.cons_append] at heq
    injection heq with hinj1 hinj2
    omega
  · next heq =>
    exfalso
    rw [hds, List.cons_append] at heq
    injection heq with hinj1 hinj2
    omega
  · next heq =>
    exfalso
    rw [hds, List.cons_append] at heq
    injection heq with hinj1 hinj2
    omega
  · rw [hlex]
    rfl

/-! ## Decode error classification (C2) -/

/-- The two error kinds the specification assigns to decoder failures. -/
inductive ErrKind : Type where
  | malformedToken : ErrKind
  | unsupportedVersion : ErrKind
deriving DecidableEq, Repr

/-- The specification kind of each decoder failure site. -/
def errKind : DecodeError → ErrKind
  | .unsupportedVersion => .unsupportedVersion
  | _ => .malformedToken

/-- The error kind `decodeResumeHash` produces, `none` on success. -/
def decodeKind (hash : List Nat) : Option ErrKind :=
  match decodeResumeHash hash with
  | .ok _ => none
  | .error e => some (errKind e)

/-- A plain JSON object (what a parsed record being a well-formed object
means for a versioned record). -/
def isJObj : JValue → Bool
  | .jobj _ => true
  | _ => false

/-- Modelled from the spec (§4.3 decode steps 1-5, in the spec's order):
reject a wrong tag, a base64/text decode failure, a parse failure or a
parsed record that is not a well-formed object as `MalformedToken`; only
then reject an unsupported `v` as `UnsupportedVersion`; then reject a
missing/empty `fp`, or an `i` that is missing, not a number or not a
finite number, as `MalformedToken`. -/
def specDecodeClass (hash : List Nat) : Option ErrKind :=
  let trimmed := jsTrim hash
  if ¬ sr1Tag.isPrefixOf trimmed then some .malformedToken
  else
    match base64UrlDecode (trimmed.drop 4) with
    | none => some .malformedToken
    | some bytes =>
      match jsonParse (textDecode bytes) with
      | none => some .malformedToken
      | some parsed =>
        if ¬ isJObj parsed then some .malformedToken
        else if ¬ isNumOne (getField parsed (strC "v")) then
          some .unsupportedVersion
        else
          match getField parsed (strC "fp") with
          | some (.jstr fpv) =>
            if fpv.isEmpty then some .malformedToken
            else
              match getField parsed (strC "i") with
              | some (.jnum iv) =>
                if jsFinite iv then none else some .malformedToken
              | _ => some .malformedToken
          | _ => some .malformedToken

/-- The classification the code actually implements: as the spec, except
that there is no separate object-shape step — every parsed value whose
`v` property read does not yield the number 1 (in particular every
non-object value, which cannot carry `v`) is `UnsupportedVersion`; the
later `fp` and `i` steps, including the rejection of a present but
non-finite `i`, keep the spec's `MalformedToken` kind. -/
def amendedDecodeClass (hash : List Nat) : Option ErrKind :=
  let trimmed := jsTrim hash
  if ¬ sr1Tag.isPrefixOf trimmed then some .malformedToken
  else
    match base64UrlDecode (trimmed.drop 4) with
    | none => some .malformedToken
    | some bytes =>
      match jsonParse (textDecode bytes) with
      | none => some .malformedToken
      | some parsed =>
        if ¬ isNumOne (getField parsed (strC "v")) then
          some .unsupportedVersion
        else
          match getField parsed (strC "fp") with
          | some (.jstr fpv) =>
            if fpv.isEmpty then some .malformedToken
            else
              match getField parsed (strC "i") with
              | some (.jnum iv) =>
                if jsFinite iv then none else some .malformedToken
              | _ => some .malformedToken
          | _ => some .malformedToken

theorem getField_of_falsy (v : JValue) (k : List Nat) (h : jsFalsy v = true) :
    getField v k = none := by
  cases v with
  | jnull => rfl
  | jbool b => rfl
  | jnum q => rfl
  | jstr s => rfl
  | jarr xs => simp [jsFalsy] at h
  | jobj fs => simp [jsFalsy] at h

/-- C2 counterexample: the token `sr1.bnVsbA` (payload text `null`)
parses successfully to a value that is not a well-formed object, so the
spec's classification order assigns `MalformedToken`, but the code
throws `Unsupported hash version.` — kind `UnsupportedVersion`. -/
theorem decode_error_classification_counterexample :
    decodeKind (strC "sr1.bnVsbA") = some ErrKind.unsupportedVersion ∧
    specDecodeClass (strC "sr1.bnVsbA") = some ErrKind.malformedToken := by
  have h1 : jsTrim (strC "sr1.bnVsbA") = strC "sr1.bnVsbA" := by decide
  have h2 : base64UrlDecode ((strC "sr1.bnVsbA").drop 4) =
      some [110, 117, 108, 108] := by decide
  have h3 : textDecode [110, 117, 108, 108] = [110, 117, 108, 108] := by
    have hb : stripBom [110, 117, 108, 108] = [110, 117, 108, 108] := rfl
    simp [textDecode, hb, utf8Decode]
  have h4 : jsonParse [110, 117, 108, 108] = some .jnull := rfl
  constructor
  · simp [decodeKind, decodeResumeHash, h1, h2, h3, h4, jsFalsy, errKind,
      show sr1Tag.isPrefixOf (strC "sr1.bnVsbA") = true from by decide]
  · simp [specDecodeClass, h1, h2, h3, h4, isJObj,
      show sr1Tag.isPrefixOf (strC "sr1.bnVsbA") = true from by decide]

/-- C2 (amended): the decoder's error kinds follow the spec's list except
that no separate well-formed-object step exists: every parsed value whose
`v` property is not the number 1 — including every non-object value — is
`UnsupportedVersion`; tag, base64 and parse failures, and the `fp`/`i`
checks after a passing version check — `fp` missing, not a string or
empty; `i` missing, not a number, or a number whose literal overflows to
`Infinity` and so fails `Number.isFinite` — are `MalformedToken`, in
that order. -/
theorem decode_error_classification_amended (s : List Nat) :
    decodeKind s = amendedDecodeClass s := by
  by_cases hpre : sr1Tag.isPrefixOf (jsTrim s) = true
  case neg =>
    simp [decodeKind, decodeResumeHash, amendedDecodeClass, hpre, errKind]
  case pos =>
  rcases hb : base64UrlDecode ((jsTrim s).drop 4) with _ | bytes
  · simp [decodeKind, decodeResumeHash, amendedDecodeClass, hpre, hb, errKind]
  rcases hp : jsonParse (textDecode bytes) with _ | parsed
  · simp [decodeKind, decodeResumeHash, amendedDecodeClass, hpre, hb, hp,
      errKind]
  by_cases hv1 : isNumOne (getField parsed (strC "v")) = true
  case neg =>
    simp [decodeKind, decodeResumeHash, amendedDecodeClass, hpre, hb, hp,
      hv1, errKind]
  case pos =>
  have hnotfalsy : jsFalsy parsed = false := by
    rcases hf : jsFalsy parsed with _ | _
    · rfl
    · rw [getField_of_falsy parsed _ hf] at hv1
      simp [isNumOne] at hv1
  rcases hfp : getField parsed (strC "fp") with _ | fv
  · simp [decodeKind, decodeResumeHash, amendedDecodeClass, hpre, hb, hp,
      hv1, hnotfalsy, hfp, errKind]
  cases fv with
  | jstr fpv =>
    by_cases hemp : fpv.isEmpty = true
    · simp [decodeKind, decodeResumeHash, amendedDecodeClass, hpre, hb, hp,
        hv1, hnotfalsy, hfp, hemp, errKind]
    · rcases hfi : getField parsed (strC "i") with _ | iv
      · simp [decodeKind, decodeResumeHash, amendedDecodeClass, hpre, hb, hp,
          hv1, hnotfalsy, hfp, hemp, hfi, errKind]
      · cases iv with
        | jnum q =>
          cases hqf : jsFinite q <;>
            simp [decodeKind, decodeResumeHash, amendedDecodeClass, hpre,
              hb, hp, hv1, hnotfalsy, hfp, hemp, hfi, hqf, errKind]
        | jnull =>
          simp [decodeKind, decodeResumeHash, amendedDecodeClass, hpre, hb,
            hp, hv1, hnotfalsy, hfp, hemp, hfi, errKind]
        | jbool b =>
          simp [decodeKind, decodeResumeHash, amendedDecodeClass, hpre, hb,
            hp, hv1, hnotfalsy, hfp, hemp, hfi, errKind]
        | jstr sv =>
          simp [decodeKind, decodeResumeHash, amendedDecodeClass, hpre, hb,
            hp, hv1, hnotfalsy, hfp, hemp, hfi, errKind]
        | jarr xs =>
          simp [decodeKind, decodeResumeHash, amendedDecodeClass, hpre, hb,
            hp, hv1, hnotfalsy, hfp, hemp, hfi, errKind]
        | jobj fs =>
          simp [decodeKind, decodeResumeHash, amendedDecodeClass, hpre, hb,
            hp, hv1, hnotfalsy, hfp, hemp, hfi, errKind]
  | jnull =>
    simp [decodeKind, decodeResumeHash, amendedDecodeClass, hpre, hb, hp,
      hv1, hnotfalsy, hfp, errKind]
  | jbool b =>
    simp [decodeKind, decodeResumeHash, amendedDecodeClass, hpre, hb, hp,
      hv1, hnotfalsy, hfp, errKind]
  | jnum q =>
    simp [decodeKind, decodeResumeHash, amendedDecodeClass, hpre, hb, hp,
      hv1, hnotfalsy, hfp, errKind]
  | jarr xs =>
    simp [decodeKind, decodeResumeHash, amendedDecodeClass, hpre, hb, hp,
      hv1, hnotfalsy, hfp, errKind]
  | jobj fs =>
    simp [decodeKind, decodeResumeHash, amendedDecodeClass, hpre, hb, hp,
      hv1, hnotfalsy, hfp, errKind]

/-! ## Member-by-member parse of the payload object text -/

/-- A raw ASCII key text: lexes as itself inside a string literal. -/
def RawKey (k : List Nat) : Prop :=
  ∀ c ∈ k, 32 ≤ c ∧ ¬ c = 34 ∧ ¬ c = 92 ∧ c < 0xD800

instance (k : List Nat) : Decidable (RawKey k) := by
  unfold RawKey; infer_instance

theorem escStr_raw (k : List Nat) (hk : RawKey k) : escStr k = k := by
  induction k with
  | nil => rfl
  | cons c t ih =>
    obtain ⟨h32, h34, h92, _⟩ := hk c (by simp)
    rw [show escStr (c :: t) = escChar c ++ escStr t from rfl,
      ih (fun x hx => hk x (by simp [hx]))]
    unfold escChar
    rw [if_neg h34, if_neg h92, if_neg (by omega), if_neg (by omega),
      if_neg (by omega), if_neg (by omega), if_neg (by omega),
      if_neg (by omega)]
    rfl

theorem rawKey_valid (k : List Nat) (hk : RawKey k) : ValidStr k :=
  fun c hc => Or.inl (hk c hc).2.2.2

theorem lexStringBody_rawKey (k : List Nat) (hk : RawKey k) (rest : List Nat) :
    lexStringBody (k ++ 34 :: rest) = some (k, rest) := by
  conv_lhs => rw [← escStr_raw k hk]
  exact lexStringBody_escStr k (rawKey_valid k hk) rest

theorem natDigits_one : natDigits 1 = [49] := by
  unfold natDigits
  rw [dif_pos (by omega)]

/-- Parsing an object headed by a string member key. -/
theorem parseVal_obj (f : Nat) (t : List Nat) :
    parseVal (f + 1) (123 :: 34 :: t) =
      (parseMembers f (34 :: t)).map (fun p => (JValue.jobj p.1, p.2)) := by
  rw [parseVal, skipWs_cons 123 _ rfl]
  rfl

/-- One member with a string value, followed by a comma and more members. -/
theorem parseMembers_str_cont (f : Nat) (k sv tail : List Nat)
    (fs : List (List Nat × JValue)) (r2 : List Nat) (hk : RawKey k)
    (hsv : ValidStr sv) (hrec : parseMembers (f + 1) tail = some (fs, r2)) :
    parseMembers (f + 2)
        (34 :: (k ++ 34 :: 58 :: 34 :: (escStr sv ++ 34 :: 44 :: tail))) =
      some ((k, JValue.jstr sv) :: fs, r2) := by
  rw [parseMembers, skipWs_cons 34 _ rfl]
  simp only [lexStringBody_rawKey k hk]
  rw [show skipWs (58 :: 34 :: (escStr sv ++ 34 :: 44 :: tail)) =
    58 :: 34 :: (escStr sv ++ 34 :: 44 :: tail) from skipWs_cons 58 _ rfl]
  simp only [parseVal_jstr f sv hsv (44 :: tail)]
  rw [show skipWs (44 :: tail) = 44 :: tail from skipWs_cons 44 _ rfl]
  simp only [hrec]
  rfl

/-- The final member, with a string value, closing the object. -/
theorem parseMembers_str_end (f : Nat) (k sv rest : List Nat) (hk : RawKey k)
    (hsv : ValidStr sv) :
    parseMembers (f + 2)
        (34 :: (k ++ 34 :: 58 :: 34 :: (escStr sv ++ 34 :: 125 :: rest))) =
      some ([(k, JValue.jstr sv)], rest) := by
  rw [parseMembers, skipWs_cons 34 _ rfl]
  simp only [lexStringBody_rawKey k hk]
  rw [show skipWs (58 :: 34 :: (escStr sv ++ 34 :: 125 :: rest)) =
    58 :: 34 :: (escStr sv ++ 34 :: 125 :: rest) from skipWs_cons 58 _ rfl]
  simp only [parseVal_jstr f sv hsv (125 :: rest)]
  rw [show skipWs (125 :: rest) = 125 :: rest from skipWs_cons 125 _ rfl]

/-- One member with a numeric value, followed by a comma and more members. -/
theorem parseMembers_num_cont (f : Nat) (k : List Nat) (i : Nat)
    (tail : List Nat) (fs : List (List Nat × JValue)) (r2 : List Nat)
    (hk : RawKey k) (hrec : parseMembers (f + 1) tail = some (fs, r2)) :
    parseMembers (f + 2) (34 :: (k ++ 34 :: 58 :: (natDigits i ++ 44 :: tail))) =
      some ((k, JValue.jnum (i : ℚ)) :: fs, r2) := by
  rw [parseMembers, skipWs_cons 34 _ rfl]
  simp only [lexStringBody_rawKey k hk]
  rw [show skipWs (58 :: (natDigits i ++ 44 :: tail)) =
    58 :: (natDigits i ++ 44 :: tail) from skipWs_cons 58 _ rfl]
  simp only [parseVal_jnum f i 44 tail (Or.inl rfl)]
  rw [show skipWs (44 :: tail) = 44 :: tail from skipWs_cons 44 _ rfl]
  simp only [hrec]
  rfl

/-- The final member, with a numeric value, closing the object. -/
theorem parseMembers_num_end (f : Nat) (k : List Nat) (i : Nat)
    (rest : List Nat) (hk : RawKey k) :
    parseMembers (f + 2) (34 :: (k ++ 34 :: 58 :: (natDigits i ++ 125 :: rest))) =
      some ([(k, JValue.jnum (i : ℚ))], rest) := by
  rw [parseMembers, skipWs_cons 34 _ rfl]
  simp only [lexStringBody_rawKey k hk]
  rw [show skipWs (58 :: (natDigits i ++ 125 :: rest)) =
    58 :: (natDigits i ++ 125 :: rest) from skipWs_cons 58 _ rfl]
  simp only [parseVal_jnum f i 125 rest (Or.inr rfl)]
  rw [show skipWs (125 :: rest) = 125 :: rest from skipWs_cons 125 _ rfl]

/-- Parsing the serialised payload returns exactly the payload object. -/
theorem jsonParse_stringifyPayload (p : ResumePayloadV1) (k : Nat)
    (hk : p.i = (k : ℚ)) (hfp : ValidStr p.fp)
    (hn : ∀ s, p.n = some s → ValidStr s)
    (hw : ∀ s, p.w = some s → ValidStr s) :
    jsonParse (stringifyPayload p) = some (.jobj (payloadFields p)) := by
  have hnum : numLit p.i = natDigits k := by
    rw [hk]
    unfold numLit intDigits
    rw [Rat.num_natCast, Rat.den_natCast]
    rw [if_neg (by omega : ¬ (k : Int) < 0), if_pos rfl, Int.toNat_natCast,
      List.append_nil]
  have hA : strC "\x7b\"v\":1,\"fp\":\"" =
      [123, 34, 118, 34, 58, 49, 44, 34, 102, 112, 34, 58, 34] := by decide
  have hB : strC "\",\"i\":" = [34, 44, 34, 105, 34, 58] := by decide
  have hC : strC "\x7d" = [125] := by decide
  have hN : strC ",\"n\":\"" = [44, 34, 110, 34, 58, 34] := by decide
  have hW : strC ",\"w\":\"" = [44, 34, 119, 34, 58, 34] := by decide
  have hQ : strC "\"" = [34] := by decide
  have hkv : strC "v" = [118] := by decide
  have hkfp : strC "fp" = [102, 112] := by decide
  have hki : strC "i" = [105] := by decide
  have hkn : strC "n" = [110] := by decide
  have hkw : strC "w" = [119] := by decide
  rcases hpn : p.n with _ | nv <;> rcases hpw : p.w with _ | wv
  · -- no advisory fields
    set T2 : List Nat :=
      34 :: (strC "i" ++ 34 :: 58 :: (natDigits k ++ 125 :: [])) with hT2
    set T1 : List Nat :=
      34 :: (strC "fp" ++ 34 :: 58 :: 34 :: (escStr p.fp ++ 34 :: 44 :: T2))
      with hT1
    set T0 : List Nat :=
      34 :: (strC "v" ++ 34 :: 58 :: (natDigits 1 ++ 44 :: T1)) with hT0
    have htext : stringifyPayload p = 123 :: T0 := by
      rw [hT0, hT1, hT2]
      simp only [stringifyPayload, hpn, hpw, hnum, hA, hB, hC, hkv, hkfp,
        hki, natDigits_one]
      simp [List.cons_append, List.nil_append, List.append_assoc]
    have hlen : 11 ≤ (stringifyPayload p).length := by
      rw [htext, hT0, hT1]
      simp [hkv, hkfp, natDigits_one]
    obtain ⟨m, hm⟩ : ∃ m, (stringifyPayload p).length + 1 = m + 12 :=
      ⟨(stringifyPayload p).length - 11, by omega⟩
    have h3 : parseMembers (m + 9) T2 =
        some ([(strC "i", JValue.jnum (k : ℚ))], []) := by
      rw [hT2]
      exact parseMembers_num_end (m + 7) (strC "i") k [] (by decide)
    have h2 : parseMembers (m + 10) T1 =
        some ([(strC "fp", JValue.jstr p.fp),
          (strC "i", JValue.jnum (k : ℚ))], []) := by
      rw [hT1]
      exact parseMembers_str_cont (m + 8) (strC "fp") p.fp T2 _ _ (by decide)
        hfp h3
    have h1 : parseMembers (m + 11) T0 =
        some ([(strC "v", JValue.jnum ((1 : ℕ) : ℚ)),
          (strC "fp", JValue.jstr p.fp),
          (strC "i", JValue.jnum (k : ℚ))], []) := by
      rw [hT0]
      exact parseMembers_num_cont (m + 9) (strC "v") 1 T1 _ _ (by decide) h2
    have htop : parseVal ((stringifyPayload p).length + 1)
        (stringifyPayload p) =
        some (JValue.jobj [(strC "v", JValue.jnum ((1 : ℕ) : ℚ)),
          (strC "fp", JValue.jstr p.fp),
          (strC "i", JValue.jnum (k : ℚ))], []) := by
      rw [hm, htext, hT0, parseVal_obj (m + 11), ← hT0, h1]
      rfl
    unfold jsonParse
    rw [htop]
    simp [payloadFields, hpn, hpw, hk, skipWs]
  · -- w only
    set T3 : List Nat :=
      34 :: (strC "w" ++ 34 :: 58 :: 34 :: (escStr wv ++ 34 :: 125 :: []))
      with hT3
    set T2 : List Nat :=
      34 :: (strC "i" ++ 34 :: 58 :: (natDigits k ++ 44 :: T3)) with hT2
    set T1 : List Nat :=
      34 :: (strC "fp" ++ 34 :: 58 :: 34 :: (escStr p.fp ++ 34 :: 44 :: T2))
      with hT1
    set T0 : List Nat :=
      34 :: (strC "v" ++ 34 :: 58 :: (natDigits 1 ++ 44 :: T1)) with hT0
    have htext : stringifyPayload p = 123 :: T0 := by
      rw [hT0, hT1, hT2, hT3]
      simp only [stringifyPayload, hpn, hpw, hnum, hA, hB, hC, hW, hQ, hkv,
        hkfp, hki, hkw, natDigits_one]
      simp [List.cons_append, List.nil_append, List.append_assoc]
    have hlen : 11 ≤ (stringifyPayload p).length := by
      rw [htext, hT0, hT1]
      simp [hkv, hkfp, natDigits_one]
    obtain ⟨m, hm⟩ : ∃ m, (stringifyPayload p).length + 1 = m + 12 :=
      ⟨(stringifyPayload p).length - 11, by omega⟩
    have h4 : parseMembers (m + 8) T3 =
        some ([(strC "w", JValue.jstr wv)], []) := by
      rw [hT3]
      exact parseMembers_str_end (m + 6) (strC "w") wv [] (by decide)
        (hw wv hpw)
    have h3 : parseMembers (m + 9) T2 =
        some ([(strC "i", JValue.jnum (k : ℚ)),
          (strC "w", JValue.jstr wv)], []) := by
      rw [hT2]
      exact parseMembers_num_cont (m + 7) (strC "i") k T3 _ _ (by decide) h4
    have h2 : parseMembers (m + 10) T1 =
        some ([(strC "fp", JValue.jstr p.fp), (strC "i", JValue.jnum (k : ℚ)),
          (strC "w", JValue.jstr wv)], []) := by
      rw [hT1]
      exact parseMembers_str_cont (m + 8) (strC "fp") p.fp T2 _ _ (by decide)
        hfp h3
    have h1 : parseMembers (m + 11) T0 =
        some ([(strC "v", JValue.jnum ((1 : ℕ) : ℚ)),
          (strC "fp", JValue.jstr p.fp), (strC "i", JValue.jnum (k : ℚ)),
          (strC "w", JValue.jstr wv)], []) := by
      rw [hT0]
      exact parseMembers_num_cont (m + 9) (strC "v") 1 T1 _ _ (by decide) h2
    have htop : parseVal ((stringifyPayload p).length + 1)
        (stringifyPayload p) =
        some (JValue.jobj [(strC "v", JValue.jnum ((1 : ℕ) : ℚ)),
          (strC "fp", JValue.jstr p.fp), (strC "i", JValue.jnum (k : ℚ)),
          (strC "w", JValue.jstr wv)], []) := by
      rw [hm, htext, hT0, parseVal_obj (m + 11), ← hT0, h1]
      rfl
    unfold jsonParse
    rw [htop]
    simp [payloadFields, hpn, hpw, hk, skipWs]
  · -- n only
    set T3 : List Nat :=
      34 :: (strC "n" ++ 34 :: 58 :: 34 :: (escStr nv ++ 34 :: 125 :: []))
      with hT3
    set T2 : List Nat :=
      34 :: (strC "i" ++ 34 :: 58 :: (natDigits k ++ 44 :: T3)) with hT2
    set T1 : List Nat :=
      34 :: (strC "fp" ++ 34 :: 58 :: 34 :: (escStr p.fp ++ 34 :: 44 :: T2))
      with hT1
    set T0 : List Nat :=
      34 :: (strC "v" ++ 34 :: 58 :: (natDigits 1 ++ 44 :: T1)) with hT0
    have htext : stringifyPayload p = 123 :: T0 := by
      rw [hT0, hT1, hT2, hT3]
      simp only [stringifyPayload, hpn, hpw, hnum, hA, hB, hC, hN, hQ, hkv,
        hkfp, hki, hkn, natDigits_one]
      simp [List.cons_append, List.nil_append, List.append_assoc]
    have hlen : 11 ≤ (stringifyPayload p).length := by
      rw [htext, hT0, hT1]
      simp [hkv, hkfp, natDigits_one]
    obtain ⟨m, hm⟩ : ∃ m, (stringifyPayload p).length + 1 = m + 12 :=
      ⟨(stringifyPayload p).length - 11, by omega⟩
    have h4 : parseMembers (m + 8) T3 =
        some ([(strC "n", JValue.jstr nv)], []) := by
      rw [hT3]
      exact parseMembers_str_end (m + 6) (strC "n") nv [] (by decide)
        (hn nv hpn)
    have h3 : parseMembers (m + 9) T2 =
        some ([(strC "i", JValue.jnum (k : ℚ)),
          (strC "n", JValue.jstr nv)], []) := by
      rw [hT2]
      exact parseMembers_num_cont (m + 7) (strC "i") k T3 _ _ (by decide) h4
    have h2 : parseMembers (m + 10) T1 =
        some ([(strC "fp", JValue.jstr p.fp), (strC "i", JValue.jnum (k : ℚ)),
          (strC "n", JValue.jstr nv)], []) := by
      rw [hT1]
      exact parseMembers_str_cont (m + 8) (strC "fp") p.fp T2 _ _ (by decide)
        hfp h3
    have h1 : parseMembers (m + 11) T0 =
        some ([(strC "v", JValue.jnum ((1 : ℕ) : ℚ)),
          (strC "fp", JValue.jstr p.fp), (strC "i", JValue.jnum (k : ℚ)),
          (strC "n", JValue.jstr nv)], []) := by
      rw [hT0]
      exact parseMembers_num_cont (m + 9) (strC "v") 1 T1 _ _ (by decide) h2
    have htop : parseVal ((stringifyPayload p).length + 1)
        (stringifyPayload p) =
        some (JValue.jobj [(strC "v", JValue.jnum ((1 : ℕ) : ℚ)),
          (strC "fp", JValue.jstr p.fp), (strC "i", JValue.jnum (k : ℚ)),
          (strC "n", JValue.jstr nv)], []) := by
      rw [hm, htext, hT0, parseVal_obj (m + 11), ← hT0, h1]
      rfl
    unfold jsonParse
    rw [htop]
    simp [payloadFields, hpn, hpw, hk, skipWs]
  · -- n and w
    set T4 : List Nat :=
      34 :: (strC "w" ++ 34 :: 58 :: 34 :: (escStr wv ++ 34 :: 125 :: []))
      with hT4
    set T3 : List Nat :=
      34 :: (strC "n" ++ 34 :: 58 :: 34 :: (escStr nv ++ 34 :: 44 :: T4))
      with hT3
    set T2 : List Nat :=
      34 :: (strC "i" ++ 34 :: 58 :: (natDigits k ++ 44 :: T3)) with hT2
    set T1 : List Nat :=
      34 :: (strC "fp" ++ 34 :: 58 :: 34 :: (escStr p.fp ++ 34 :: 44 :: T2))
      with hT1
    set T0 : List Nat :=
      34 :: (strC "v" ++ 34 :: 58 :: (natDigits 1 ++ 44 :: T1)) with hT0
    have htext : stringifyPayload p = 123 :: T0 := by
      rw [hT0, hT1, hT2, hT3, hT4]
      simp only [stringifyPayload, hpn, hpw, hnum, hA, hB, hC, hN, hW, hQ,
        hkv, hkfp, hki, hkn, hkw, natDigits_one]
      simp [List.cons_append, List.nil_append, List.append_assoc]
    have hlen : 11 ≤ (stringifyPayload p).length := by
      rw [htext, hT0, hT1]
      simp [hkv, hkfp, natDigits_one]
    obtain ⟨m, hm⟩ : ∃ m, (stringifyPayload p).length + 1 = m + 12 :=
      ⟨(stringifyPayload p).length - 11, by omega⟩
    have h5 : parseMembers (m + 7) T4 =
        some ([(strC "w", JValue.jstr wv)], []) := by
      rw [hT4]
      exact parseMembers_str_end (m + 5) (strC "w") wv [] (by decide)
        (hw wv hpw)
    have h4 : parseMembers (m + 8) T3 =
        some ([(strC "n", JValue.jstr nv), (strC "w", JValue.jstr wv)], []) := by
      rw [hT3]
      exact parseMembers_str_cont (m + 6) (strC "n") nv T4 _ _ (by decide)
        (hn nv hpn) h5
    have h3 : parseMembers (m + 9) T2 =
        some ([(strC "i", JValue.jnum (k : ℚ)), (strC "n", JValue.jstr nv),
          (strC "w", JValue.jstr wv)], []) := by
      rw [hT2]
      exact parseMembers_num_cont (m + 7) (strC "i") k T3 _ _ (by decide) h4
    have h2 : parseMembers (m + 10) T1 =
        some ([(strC "fp", JValue.jstr p.fp), (strC "i", JValue.jnum (k : ℚ)),
          (strC "n", JValue.jstr nv), (strC "w", JValue.jstr wv)], []) := by
      rw [hT1]
      exact parseMembers_str_cont (m + 8) (strC "fp") p.fp T2 _ _ (by decide)
        hfp h3
    have h1 : parseMembers (m + 11) T0 =
        some ([(strC "v", JValue.jnum ((1 : ℕ) : ℚ)),
          (strC "fp", JValue.jstr p.fp), (strC "i", JValue.jnum (k : ℚ)),
          (strC "n", JValue.jstr nv), (strC "w", JValue.jstr wv)], []) := by
      rw [hT0]
      exact parseMembers_num_cont (m + 9) (strC "v") 1 T1 _ _ (by decide) h2
    have htop : parseVal ((stringifyPayload p).length + 1)
        (stringifyPayload p) =
        some (JValue.jobj [(strC "v", JValue.jnum ((1 : ℕ) : ℚ)),
          (strC "fp", JValue.jstr p.fp), (strC "i", JValue.jnum (k : ℚ)),
          (strC "n", JValue.jstr nv), (strC "w", JValue.jstr wv)], []) := by
      rw [hm, htext, hT0, parseVal_obj (m + 11), ← hT0, h1]
      rfl
    unfold jsonParse
    rw [htop]
    simp [payloadFields, hpn, hpw, hk, skipWs]

/-! ## Codec round trip: encode then decode -/

theorem jsTrim_eq_self (l : List Nat) (h : ∀ c ∈ l, jsWsB c = false) :
    jsTrim l = l := by
  unfold jsTrim
  rw [dropWhile_eq_self_of_all _ l h,
    dropWhile_eq_self_of_all _ l.reverse (by simpa using h),
    List.reverse_reverse]

theorem mem_stripTrailingEq {c : Nat} {s : List Nat}
    (h : c ∈ stripTrailingEq s) : c ∈ s := by
  unfold stripTrailingEq at h
  rw [List.mem_reverse] at h
  exact List.mem_reverse.mp ((List.dropWhile_sublist _).subset h)

theorem b64c_range (i : Nat) : 43 ≤ b64c i ∧ b64c i ≤ 122 := by
  unfold b64c
  split
  · omega
  · split
    · omega
    · split
      · omega
      · split <;> omega

theorem mem_btoaGroups (bytes : List Nat) :
    ∀ d ∈ btoaGroups bytes, d = 61 ∨ (43 ≤ d ∧ d ≤ 122) := by
  intro d hd
  rw [btoaGroups_decomp, btoaBody_eq_map] at hd
  rcases List.mem_append.mp hd with h | h
  · obtain ⟨i, _, rfl⟩ := List.mem_map.mp h
    exact Or.inr (b64c_range i)
  · exact Or.inl (List.eq_of_mem_replicate h)

theorem jsWsB_of_range (c : Nat) (h1 : 43 ≤ c) (h2 : c ≤ 122) :
    jsWsB c = false := by
  unfold jsWsB
  simp only [Bool.or_eq_false_iff, decide_eq_false_iff_not,
    Bool.and_eq_false_iff]
  omega

theorem base64UrlEncode_no_ws (bytes : List Nat) :
    ∀ c ∈ base64UrlEncode bytes, jsWsB c = false := by
  intro c hc
  unfold base64UrlEncode at hc
  obtain ⟨d, hd, rfl⟩ := List.mem_map.mp (mem_stripTrailingEq hc)
  have hrange : 43 ≤ urlRepl d ∧ urlRepl d ≤ 122 := by
    rcases mem_btoaGroups bytes d hd with rfl | h <;> unfold urlRepl <;>
      split <;> try split
    all_goals omega
  exact jsWsB_of_range _ hrange.1 hrange.2

theorem numLit_natCast (k : Nat) : numLit ((k : ℚ)) = natDigits k := by
  unfold numLit intDigits
  rw [Rat.num_natCast, Rat.den_natCast]
  rw [if_neg (by omega : ¬ (k : Int) < 0), if_pos rfl, Int.toNat_natCast,
    List.append_nil]

theorem validStr_append {a b : List Nat} (ha : ValidStr a)
    (hb : ValidStr b) : ValidStr (a ++ b) := by
  intro c hc
  rcases List.mem_append.mp hc with h | h
  · exact ha c h
  · exact hb c h

theorem escChar_valid (c : Nat) (hv : ValidScalar c) :
    ∀ d ∈ escChar c, ValidScalar d := by
  intro d hd
  have hh : ∀ x : Nat, hexDigit x < 88 + x := by
    intro x
    unfold hexDigit
    split <;> omega
  have hmem : d = c ∨ d < 0xD800 := by
    unfold escChar at hd
    have h1 := hh (c / 16)
    have h2 := hh (c % 16)
    repeat' split at hd
    all_goals simp at hd
    all_goals omega
  rcases hmem with rfl | h
  · exact hv
  · exact Or.inl h

theorem escStr_valid (s : List Nat) (hv : ValidStr s) :
    ValidStr (escStr s) := by
  intro d hd
  obtain ⟨c, hc, hdc⟩ := List.mem_flatMap.mp hd
  exact escChar_valid c (hv c hc) d hdc

theorem natDigits_valid (n : Nat) : ValidStr (natDigits n) := by
  intro c hc
  have hd := natDigits_digits n c hc
  unfold isDigitB at hd
  simp only [Bool.and_eq_true, decide_eq_true_eq] at hd
  exact Or.inl (by omega)

theorem stringifyPayload_valid (p : ResumePayloadV1) (k : Nat)
    (hk : p.i = (k : ℚ)) (hfp : ValidStr p.fp)
    (hn : ∀ s, p.n = some s → ValidStr s)
    (hw : ∀ s, p.w = some s → ValidStr s) :
    ValidStr (stringifyPayload p) := by
  have hnum : numLit p.i = natDigits k := by rw [hk]; exact numLit_natCast k
  unfold stringifyPayload
  rw [hnum]
  refine validStr_append (validStr_append (validStr_append (validStr_append
    (validStr_append (validStr_append (by decide) (escStr_valid _ hfp))
    (by decide)) (natDigits_valid k)) ?_) ?_) (by decide)
  · rcases hpn : p.n with _ | nv <;> simp only [hpn]
    · decide
    · exact validStr_append (validStr_append (by decide)
        (escStr_valid _ (hn nv hpn))) (by decide)
  · rcases hpw : p.w with _ | wv <;> simp only [hpw]
    · decide
    · exact validStr_append (validStr_append (by decide)
        (escStr_valid _ (hw wv hpw))) (by decide)


theorem utf8Encode_stringifyPayload_head (p : ResumePayloadV1) :
    ∃ t, utf8Encode (stringifyPayload p) = 123 :: t := by
  have h : ∃ t0, stringifyPayload p = 123 :: t0 := by
    unfold stringifyPayload
    exact ⟨_, rfl⟩
  obtain ⟨t0, ht0⟩ := h
  refine ⟨utf8Encode t0, ?_⟩
  rw [ht0]
  rfl

/-- Decoding an encoded payload recovers it exactly, for the payloads the
program produces: integral index below the double-overflow threshold,
non-empty fingerprint, and all strings made of Unicode scalar values. -/
theorem decodeResumeHash_encodeResumeHash (p : ResumePayloadV1) (k : Nat)
    (hk : p.i = (k : ℚ)) (hfin : k < 2 ^ 1024 - 2 ^ 970)
    (hfpne : p.fp ≠ []) (hfp : ValidStr p.fp)
    (hn : ∀ s, p.n = some s → ValidStr s)
    (hw : ∀ s, p.w = some s → ValidStr s) :
    decodeResumeHash (encodeResumeHash p) = .ok p := by
  have hvalid : ValidStr (stringifyPayload p) :=
    stringifyPayload_valid p k hk hfp hn hw
  have hbytes : ∀ b ∈ utf8Encode (stringifyPayload p), b < 256 :=
    utf8Encode_lt _ hvalid
  have htagws : ∀ c ∈ sr1Tag, jsWsB c = false := by decide
  have htrim : jsTrim (encodeResumeHash p) = encodeResumeHash p := by
    apply jsTrim_eq_self
    intro c hc
    unfold encodeResumeHash at hc
    rcases List.mem_append.mp hc with h | h
    · exact htagws c h
    · exact base64UrlEncode_no_ws _ c h
  have hpref : sr1Tag.isPrefixOf (encodeResumeHash p) = true := by
    unfold encodeResumeHash
    rw [List.isPrefixOf_iff_prefix]
    exact List.prefix_append _ _
  have hdrop : (encodeResumeHash p).drop 4 =
      base64UrlEncode (utf8Encode (stringifyPayload p)) := by
    unfold encodeResumeHash
    exact List.drop_left' (by decide)
  have hb64 : base64UrlDecode
        (base64UrlEncode (utf8Encode (stringifyPayload p))) =
      some (utf8Encode (stringifyPayload p)) := base64_roundtrip _ hbytes
  have hbom : stripBom (utf8Encode (stringifyPayload p)) =
      utf8Encode (stringifyPayload p) := by
    obtain ⟨t, ht⟩ := utf8Encode_stringifyPayload_head p
    rw [ht]
    rfl
  have hutf : textDecode (utf8Encode (stringifyPayload p)) =
      stringifyPayload p := by
    unfold textDecode
    rw [hbom]
    exact utf8_roundtrip _ hvalid
  have hfinq : jsFinite ((k : ℚ)) = true := by
    have h1 : (2 : ℕ) ^ 970 ≤ 2 ^ 1024 :=
      Nat.pow_le_pow_right (by omega) (by omega)
    have h2 : (k : ℚ) < ((2 ^ 1024 - 2 ^ 970 : ℕ) : ℚ) := by
      exact_mod_cast hfin
    rw [Nat.cast_sub h1] at h2
    push_cast at h2
    unfold jsFinite dblOverflow
    rw [decide_eq_true_eq, Nat.abs_cast]
    exact h2
  have hjson : jsonParse (stringifyPayload p) =
      some (.jobj (payloadFields p)) :=
    jsonParse_stringifyPayload p k hk hfp hn hw
  have hfe : p.fp.isEmpty = false := by
    cases hpf : p.fp with
    | nil => exact absurd hpf hfpne
    | cons a t => rfl
  have hkv : strC "v" = [118] := by decide
  have hkfp : strC "fp" = [102, 112] := by decide
  have hki : strC "i" = [105] := by decide
  have hkn : strC "n" = [110] := by decide
  have hkw : strC "w" = [119] := by decide
  have hetap : p = (⟨p.fp, p.i, p.n, p.w⟩ : ResumePayloadV1) := rfl
  conv_rhs => rw [hetap]
  rcases hpn : p.n with _ | nv <;> rcases hpw : p.w with _ | wv <;>
    simp [decodeResumeHash, htrim, hpref, hdrop, hb64, hutf, hjson, hfe,
      payloadFields, hpn, hpw, getField, lookupLast, optStr, isNumOne,
      jsFalsy, hkv, hkfp, hki, hkn, hkw, hk, hfinq]


/-- C1: resume-token codec round trip — for every payload carrying a
non-empty fingerprint, a non-negative integral index and optional
advisory strings (every string a sequence of Unicode scalar values, as
JS strings handed to `TextEncoder` are), decoding an encoded token
succeeds and returns exactly the encoded payload.  A non-negative
integer JS number is by nature below the double-overflow threshold
`2^1024 - 2^970`, which is the stated bound on the index. -/
theorem codec_round_trip (p : ResumePayloadV1) (k : Nat)
    (hk : p.i = (k : ℚ)) (hfin : k < 2 ^ 1024 - 2 ^ 970)
    (hfpne : p.fp ≠ []) (hfp : ValidStr p.fp)
    (hn : ∀ s, p.n = some s → ValidStr s)
    (hw : ∀ s, p.w = some s → ValidStr s) :
    decodeResumeHash (encodeResumeHash p) = .ok p :=
  decodeResumeHash_encodeResumeHash p k hk hfin hfpne hfp hn hw

/-- Witness for C1: the specification's own example, fingerprint
`abc123` and index `42`, round-trips. -/
theorem codec_round_trip_witness :
    decodeResumeHash (encodeResumeHash ⟨strC "abc123", 42, none, none⟩) =
      .ok ⟨strC "abc123", 42, none, none⟩ :=
  codec_round_trip ⟨strC "abc123", 42, none, none⟩ 42 (by simp) (by decide)
    (by decide) (by decide) (fun s h => Option.noConfusion h)
    (fun s h => Option.noConfusion h)

/-- Witness for C4: a token carrying index 7 and the matching
fingerprint `f5`, pasted against a five-word document, moves the shared
cursor to `clamp(trunc(7), 0, 4)` and changes nothing else. -/
theorem successful_import_truncate_clamp_witness :
    (applyPasted track5 (encodeResumeHash ⟨strC "f5", 7, none, none⟩)
        demoPlaying5).wordIndex =
      clampI (jsTrunc (7 : ℚ)) 0 (max 0 ((maxLen demoPlaying5 : Int) - 1)) ∧
    (applyPasted track5 (encodeResumeHash ⟨strC "f5", 7, none, none⟩)
        demoPlaying5).tracks = demoPlaying5.tracks ∧
    (applyPasted track5 (encodeResumeHash ⟨strC "f5", 7, none, none⟩)
        demoPlaying5).isPlaying = demoPlaying5.isPlaying ∧
    (applyPasted track5 (encodeResumeHash ⟨strC "f5", 7, none, none⟩)
        demoPlaying5).wpm = demoPlaying5.wpm :=
  successful_import_truncate_clamp track5 _ demoPlaying5 (strC "f5")
    ⟨strC "f5", 7, none, none⟩ rfl
    (decodeResumeHash_encodeResumeHash ⟨strC "f5", 7, none, none⟩ 7 (by simp)
      (by decide) (by decide) (by decide) (fun s h => Option.noConfusion h)
      (fun s h => Option.noConfusion h))
    rfl

end Lingread
